import Mathlib

/-!
Verification development for the `srs_worms` worm-morphology pipeline
(`src/srs_worms/worm_morphology.py`).

The Python functions are shallowly embedded as Lean functions:

* numpy integer coordinate pairs become `ℤ × ℤ`; floating point
  coordinates (spline points) become `ℚ × ℚ`, with exact real numbers
  (`ℝ`) used wherever the source computes square roots or `arccos`
  (`np.linalg.norm`, `np.arccos`);
* 2-dimensional numpy arrays (masks) become `List (List ℕ)` with the
  out-of-range default 0 made explicit by `List.getD`;
* `np.argmin` / `np.argmax` (first occurrence of the extremum) become
  `idxMinFirst` / `idxMaxFirst`;
* external library primitives (OpenCV contour extraction and
  `cv2.contourArea`, scipy spline fitting) are parameters of the
  embedded functions; external primitives whose behaviour the claims
  depend on (`cv2.line` rasterization, `skimage.measure.label`
  connectivity labeling) are modelled concretely from the spec's
  description of the required external interface.

Machine reals (float64) are idealised as exact real arithmetic; the one
place where the two visibly differ - division by a zero vector norm,
which produces NaN in numpy - is never silently modelled: theorems
about the angle computation carry an explicit no-zero-denominator
hypothesis, and the division-by-zero situation itself is the subject of
claim C9.
-/

/-- Integer pixel coordinate as stored in an OpenCV contour: `(x, y)`. -/
abbrev Pt : Type := ℤ × ℤ

/-- Rational 2-d point, used for spline (midline) coordinates. -/
abbrev PtQ : Type := ℚ × ℚ

/-- A 2-d mask: list of rows, each row a list of non-negative labels
(0 = background).  Mirrors a 2-d numpy integer array. -/
abbrev MaskL : Type := List (List ℕ)

/-- Mask pixel read `mask[y, x]` with natural-number indices; reads
outside the stored grid return 0 (the hypotheses of the theorems keep
all reads that matter in bounds, matching numpy's in-range behaviour). -/
def getPix (m : MaskL) (y x : ℕ) : ℕ := (m.getD y []).getD x 0

/-- Mask pixel read `mask[y, x]` at integer coordinates (contour points
are integer `(x, y)` pairs). Negative coordinates read 0; theorems that
depend on this read carry in-bounds hypotheses. -/
def getPixZ (m : MaskL) (y x : ℤ) : ℕ :=
  if 0 ≤ y ∧ 0 ≤ x then getPix m y.toNat x.toNat else 0

/-- In-bounds predicate for an `(x, y)` point in a mask. -/
def inBoundsPt (m : MaskL) (p : Pt) : Prop :=
  0 ≤ p.1 ∧ 0 ≤ p.2 ∧ p.2.toNat < m.length ∧ p.1.toNat < (m.getD p.2.toNat []).length

instance (m : MaskL) (p : Pt) : Decidable (inBoundsPt m p) := by
  unfold inBoundsPt; infer_instance

/-- Number of rows of a mask. -/
def maskRows (m : MaskL) : ℕ := m.length

/-- Helper computing, for a non-empty list `a :: t`, the index and value
of the first minimum (the semantics of `np.argmin`: ties are broken
towards the smallest index). -/
def minIdxVal [LinearOrder α] (a : α) : List α → ℕ × α
  | [] => (0, a)
  | b :: t =>
    if (minIdxVal b t).2 < a then ((minIdxVal b t).1 + 1, (minIdxVal b t).2) else (0, a)

/-- Helper computing, for a non-empty list `a :: t`, the index and value
of the first maximum (the semantics of `np.argmax`). -/
def maxIdxVal [LinearOrder α] (a : α) : List α → ℕ × α
  | [] => (0, a)
  | b :: t =>
    if a < (maxIdxVal b t).2 then ((maxIdxVal b t).1 + 1, (maxIdxVal b t).2) else (0, a)

/-- Shallow embedding of `np.argmin` on a list (first index attaining
the minimum; 0 on the empty list, on which numpy raises instead - every
use below is guarded by a non-emptiness hypothesis or applied to a list
that is non-empty by construction). -/
def idxMinFirst [LinearOrder α] : List α → ℕ
  | [] => 0
  | a :: t => (minIdxVal a t).1

/-- Shallow embedding of `np.argmax` on a list (first index attaining
the maximum). -/
def idxMaxFirst [LinearOrder α] : List α → ℕ
  | [] => 0
  | a :: t => (maxIdxVal a t).1

/-!
Embedding of `get_endpoint_idx` (`worm_morphology.py`, lines 21-45) and
`get_second_endpoint` (lines 47-66).
-/

/-- Componentwise subtraction of integer points (numpy array subtraction). -/
def ptSub (p q : Pt) : Pt := (p.1 - q.1, p.2 - q.2)

/-- Integer dot product of two 2-d vectors (`np.sum(vf * vb, axis=1)` for
one row). -/
def dotZ (u v : Pt) : ℤ := u.1 * v.1 + u.2 * v.2

/-- Squared Euclidean norm of an integer vector; `np.linalg.norm` of the
vector is the real square root of this quantity. -/
def norm2 (u : Pt) : ℤ := u.1 * u.1 + u.2 * u.2

/-- Shallow embedding of `np.concatenate([path[-space:], path[:-space]])`
(the path rolled right by `space`).  `List.drop`/`List.take` with
truncated subtraction reproduce numpy's clamping slice semantics for
every `space`, including `space ≥ len(path)`. -/
def pathForward (path : List Pt) (s : ℕ) : List Pt :=
  path.drop (path.length - s) ++ path.take (path.length - s)

/-- Shallow embedding of `np.concatenate([path[space:], path[:space]])`
(the path rolled left by `space`). -/
def pathBackward (path : List Pt) (s : ℕ) : List Pt :=
  path.drop s ++ path.take s

/-- Rows of `path_forward - path`. -/
def vecForward (path : List Pt) (s : ℕ) : List Pt :=
  List.zipWith ptSub (pathForward path s) path

/-- Rows of `path_backward - path`. -/
def vecBackward (path : List Pt) (s : ℕ) : List Pt :=
  List.zipWith ptSub (pathBackward path s) path

/-- Rows of `np.sum(vector_forward * vector_backward, axis=1)`. -/
def dotList (path : List Pt) (s : ℕ) : List ℤ :=
  List.zipWith dotZ (vecForward path s) (vecBackward path s)

/-- Squared norms of the forward vectors. -/
def normSqF (path : List Pt) (s : ℕ) : List ℤ :=
  (vecForward path s).map norm2

/-- Squared norms of the backward vectors. -/
def normSqB (path : List Pt) (s : ℕ) : List ℤ :=
  (vecBackward path s).map norm2

/-- The clamp `np.clip(·, -1, 1)`. -/
noncomputable def clipR (x : ℝ) : ℝ := min 1 (max (-1) x)

/-- Row `i` of
`dot_product / (np.linalg.norm(vector_forward) * np.linalg.norm(vector_backward))`:
the (unclipped) cosine of the turning angle, in exact real arithmetic. -/
noncomputable def cosList (path : List Pt) (s : ℕ) : List ℝ :=
  List.zipWith (fun (d : ℤ) (den : ℝ) => (d : ℝ) / den)
    (dotList path s)
    (List.zipWith (fun (nf nb : ℤ) => Real.sqrt (nf : ℝ) * Real.sqrt (nb : ℝ))
      (normSqF path s) (normSqB path s))

/-- The turning-angle array `angles = np.arccos(np.clip(..., -1, 1))`. -/
noncomputable def anglesR (path : List Pt) (s : ℕ) : List ℝ :=
  (cosList path s).map (fun x => Real.arccos (clipR x))

/-- Embedding of `get_endpoint_idx(path, space)` with `second=False`:
`np.argmin(angles)`. -/
noncomputable def get_endpoint_idxR (path : List Pt) (s : ℕ) : ℕ :=
  idxMinFirst (anglesR path s)

/-- Embedding of `get_second_endpoint(path, angles, idx)` for an
arbitrary linearly ordered angle array (numpy only compares the array's
entries).  `skip = len(path) // 4`; the slice `reordered[skip:-skip]`
is empty when `skip = 0` (Python's `a[0:-0]` is `a[0:0]`), which is the
degenerate case in which numpy's `argmin` would raise. -/
def get_second_endpoint [LinearOrder α] (path : List Pt) (angles : List α) (idx : ℕ) : ℕ :=
  let skip := path.length / 4
  let rp := path.drop idx ++ path.take idx
  let ra := angles.drop idx ++ angles.take idx
  let middle := if skip = 0 then [] else (ra.drop skip).take (ra.length - 2 * skip)
  path.findIdx (fun q => decide (q = rp.getD (idxMinFirst middle + skip) (0, 0)))

/-- Embedding of `get_endpoint_idx(path, space, second=True)`: the pair
`(idx, get_second_endpoint(path, angles, idx))`. -/
noncomputable def get_endpoint_pairR (path : List Pt) (s : ℕ) : ℕ × ℕ :=
  (get_endpoint_idxR path s,
   get_second_endpoint path (anglesR path s) (get_endpoint_idxR path s))

/-- Computable stand-in for one cosine value: `cosKey d m` is a strictly
increasing function of `d / √m` (for `m > 0`), namely `sign(d) · d² / m`
as a rational number.  Comparing keys is exact; no square roots are
needed. -/
def cosKey (d m : ℤ) : ℚ := if 0 ≤ d then (d ^ 2 : ℚ) / (m : ℚ) else -((d ^ 2 : ℚ) / (m : ℚ))

/-- Products `‖vf‖² · ‖vb‖²` (the square of the denominator of the
cosine). -/
def denomSq (path : List Pt) (s : ℕ) : List ℤ :=
  List.zipWith (fun nf nb => nf * nb) (normSqF path s) (normSqB path s)

/-- Computable keys that order exactly like the cosines (and hence
reverse-order like the `arccos` angles). -/
def cosKeys (path : List Pt) (s : ℕ) : List ℚ :=
  List.zipWith cosKey (dotList path s) (denomSq path s)

/-- Computable version of `get_endpoint_idx(path, space)`:
`np.argmin` over angles equals `np.argmax` over cosine keys because
`arccos` is strictly decreasing (theorem `get_endpoint_idx_R_eq_C`). -/
def get_endpoint_idxC (path : List Pt) (s : ℕ) : ℕ :=
  idxMaxFirst (cosKeys path s)

/-- Computable version of `get_second_endpoint`, identical to
`get_second_endpoint` except that it receives cosine keys and therefore
takes the first arg-max of the middle section. -/
def get_second_endpointMax [LinearOrder α] (path : List Pt) (keys : List α) (idx : ℕ) : ℕ :=
  let skip := path.length / 4
  let rp := path.drop idx ++ path.take idx
  let rk := keys.drop idx ++ keys.take idx
  let middle := if skip = 0 then [] else (rk.drop skip).take (rk.length - 2 * skip)
  path.findIdx (fun q => decide (q = rp.getD (idxMaxFirst middle + skip) (0, 0)))

/-- Computable version of `get_endpoint_idx(path, space, second=True)`. -/
def get_endpoint_pairC (path : List Pt) (s : ℕ) : ℕ × ℕ :=
  (get_endpoint_idxC path s,
   get_second_endpointMax path (cosKeys path s) (get_endpoint_idxC path s))

/-- Signed square root on ℚ, as a real number: the strictly monotone map
with `sgnSqrt (cosKey d m) = d / √m`. -/
noncomputable def sgnSqrt (q : ℚ) : ℝ :=
  if 0 ≤ q then Real.sqrt (q : ℝ) else -Real.sqrt ((-q : ℚ) : ℝ)

/-- Angle associated with a cosine key. -/
noncomputable def keyToAngle (q : ℚ) : ℝ := Real.arccos (clipR (sgnSqrt q))

/-- No zero-length forward/backward vectors: the hypothesis under which
the source's cosine computation divides by a non-zero quantity (numpy
would otherwise produce NaN; see claim C9). -/
def noZeroVec (path : List Pt) (s : ℕ) : Prop :=
  (∀ u ∈ vecForward path s, norm2 u ≠ 0) ∧ ∀ u ∈ vecBackward path s, norm2 u ≠ 0

instance (path : List Pt) (s : ℕ) : Decidable (noZeroVec path s) := by
  unfold noZeroVec; infer_instance

/-!
Embedding of `check_head` (`worm_morphology.py`, lines 68-98).
-/

/-- Embedding of `check_head(path, idx, second_idx, ant_mask)`: the
anchor is `path[idx]`, an `(x, y)` point; the mask is indexed as
`ant_mask[anchor[1], anchor[0]]`. -/
def check_head (path : List Pt) (idx second_idx : ℕ) (ant_mask : MaskL) : ℕ × ℕ :=
  let anchor := path.getD idx (0, 0)
  if getPixZ ant_mask anchor.2 anchor.1 = 0 then (second_idx, idx) else (idx, second_idx)

/-- Anterior-mask value at the pixel of contour point number `k`. -/
def antAt (path : List Pt) (k : ℕ) (ant_mask : MaskL) : ℕ :=
  getPixZ ant_mask (path.getD k (0, 0)).2 (path.getD k (0, 0)).1

/-- Pointwise foreground/background complement of a mask: every non-zero
pixel becomes 0, every zero pixel becomes non-zero (value 1). -/
def complementC (m : MaskL) : MaskL :=
  m.map (fun row => row.map (fun v => if v = 0 then 1 else 0))

/-!
Embedding of `resample_path` and `get_spline`
(`worm_morphology.py`, lines 100-136).  The scipy pair
`splprep`/`splev` - fit a smooth parametric curve through the points
and evaluate it at `num_points` equally spaced parameter values - is
the external curve-fitting primitive of the spec's section 6 and enters
as the parameter `fit`.
-/

/-- Embedding of `resample_path(path, num_points)`: delegate to the
external curve fitting/evaluation primitive. -/
def resample_path (fit : List Pt → ℕ → List PtQ) (path : List Pt)
    (num_points : ℕ) : List PtQ :=
  fit path num_points

/-- Integer contour point as a rational point. -/
def ptQofZ (p : Pt) : PtQ := ((p.1 : ℚ), (p.2 : ℚ))

/-- Squared Euclidean distance between two rational points;
`np.linalg.norm(p - q)` is its real square root. -/
def sqDistQ (p q : PtQ) : ℚ := (p.1 - q.1) ^ 2 + (p.2 - q.2) ^ 2

/-- Pointwise average of two rational points
(`(resample_path(a) + resample_path(b)) / 2` for one row). -/
def ptQavg (a b : PtQ) : PtQ := ((a.1 + b.1) / 2, (a.2 + b.2) / 2)

/-- Embedding of `get_spline(path, head_idx, tail_idx)`.  The final
comparison `norm(avg[0] - anchor) > norm(avg[-1] - anchor)` of the
source is embedded as the equivalent comparison of squared distances
(both norms are non-negative, and squaring is strictly monotone on
non-negative reals; `sqDist_sqrt_lt_iff` below records the
equivalence). -/
def get_spline (fit : List Pt → ℕ → List PtQ) (path : List Pt)
    (head_idx tail_idx : ℕ) : List PtQ :=
  let small_idx := min head_idx tail_idx
  let large_idx := max head_idx tail_idx
  let first_half := (path.drop small_idx).take (large_idx - small_idx)
  let second_half := (path.drop large_idx ++ path.take small_idx).reverse
  let avg_path := List.zipWith ptQavg
    (resample_path fit first_half 5000) (resample_path fit second_half 5000)
  let anchor := ptQofZ (path.getD head_idx (0, 0))
  if sqDistQ (avg_path.getD (avg_path.length - 1) (0, 0)) anchor
      < sqDistQ (avg_path.getD 0 (0, 0)) anchor
  then avg_path.reverse else avg_path

/-!
Embedding of `get_quantile_point` (`worm_morphology.py`, lines 138-151).
-/

/-- Rows of `np.linalg.norm(np.diff(path, axis=0), axis=1)`: Euclidean
lengths of the segments between consecutive midline points. -/
noncomputable def diffDists (pts : List PtQ) : List ℝ :=
  (pts.zip pts.tail).map (fun pq => Real.sqrt ((sqDistQ pq.2 pq.1 : ℚ) : ℝ))

/-- Shallow embedding of `np.cumsum`. -/
def cumsumL [AddCommMonoid α] : List α → List α
  | [] => []
  | a :: t => a :: (cumsumL t).map (fun x => a + x)

/-- The array `cum_distance` of the source. -/
noncomputable def cumDist (pts : List PtQ) : List ℝ := cumsumL (diffDists pts)

/-- Embedding of `get_quantile_point(path, quantile)`:
`np.argmin(np.abs(cum_distance - cum_distance[-1] * quantile))`.
The list is empty when the midline has fewer than two points (numpy
raises there; theorems carry a length hypothesis). -/
noncomputable def get_quantile_point (pts : List PtQ) (q : ℚ) : ℕ :=
  idxMinFirst ((cumDist pts).map
    (fun x => |x - (cumDist pts).getLastD 0 * (q : ℝ)|))

/-- Computable counterpart of `diffDists` for midlines all of whose
segment lengths are rational (used to evaluate the quantile locator on
concrete inputs). -/
def diffDistsQ (pts : List PtQ) : List ℚ :=
  (pts.zip pts.tail).map (fun pq => Rat.sqrt (sqDistQ pq.2 pq.1))

/-- Predicate: every consecutive squared distance is a perfect rational
square, so all segment lengths are rational. -/
def allPerfSq (pts : List PtQ) : Prop :=
  ∀ pq ∈ pts.zip pts.tail,
    Rat.sqrt (sqDistQ pq.2 pq.1) * Rat.sqrt (sqDistQ pq.2 pq.1) = sqDistQ pq.2 pq.1

instance (pts : List PtQ) : Decidable (allPerfSq pts) := by
  unfold allPerfSq; infer_instance

/-- Computable counterpart of `get_quantile_point` on perfect-square
midlines. -/
def get_quantile_pointQ (pts : List PtQ) (q : ℚ) : ℕ :=
  idxMinFirst ((cumsumL (diffDistsQ pts)).map
    (fun x => |x - (cumsumL (diffDistsQ pts)).getLastD 0 * q|))

/-!
Embedding of `divide_mask` (`worm_morphology.py`, lines 153-177) and
`select_mask` (lines 179-198).
-/

/-- Python's `int()` conversion: truncation toward zero. -/
def pyInt (q : ℚ) : ℤ := if 0 ≤ q then ⌊q⌋ else ⌈q⌉

/-- Modelled from the spec: the external `cv2.line(temp, p1, p2, 0, 2)`
primitive - "draw a straight line segment ... with a finite pixel
thickness (2), overwritten as background directly on a copy of the
mask" (spec sections 4.6 and 6).  A pixel is cleared exactly when its
Euclidean distance to the segment `[p1, p2]` is at most 1; only clears
pixels (never creates foreground), which is the sole property the
claims rely on. -/
def segNear (p1 p2 : Pt) (px py : ℤ) : Bool :=
  let ax : ℚ := (p1.1 : ℚ); let ay : ℚ := (p1.2 : ℚ)
  let wx : ℚ := (p2.1 : ℚ) - ax; let wy : ℚ := (p2.2 : ℚ) - ay
  let vx : ℚ := (px : ℚ) - ax; let vy : ℚ := (py : ℚ) - ay
  if wx = 0 ∧ wy = 0 then decide (vx ^ 2 + vy ^ 2 ≤ 1)
  else
    let t : ℚ := (vx * wx + vy * wy) / (wx ^ 2 + wy ^ 2)
    let tc : ℚ := min 1 (max 0 t)
    decide ((vx - tc * wx) ^ 2 + (vy - tc * wy) ^ 2 ≤ 1)

/-- Modelled from the spec: drawing the background-coloured thick line
on (a copy of) the mask. -/
def lineDrawC (m : MaskL) (p1 p2 : Pt) : MaskL :=
  (List.range m.length).map (fun (y : ℕ) =>
    (List.range (m.getD y []).length).map (fun (x : ℕ) =>
      if segNear p1 p2 (x : ℤ) (y : ℤ) then 0 else getPix m y x))

/-- Embedding of `divide_mask(mask, path, mid_point_idx, space,
multiplier)`: normal vector to the midline chord, extended both ways,
drawn as background on a copy of the mask. -/
def divide_mask (mask : MaskL) (path : List PtQ) (mid_point_idx : ℕ)
    (space : ℕ) (multiplier : ℚ) : MaskL :=
  let p1 := path.getD mid_point_idx (0, 0)
  let p2 := path.getD (mid_point_idx + space) (0, 0)
  let nx := p2.2 - p1.2
  let ny := p1.1 - p2.1
  let xn1 := p1.1 + multiplier * nx
  let yn1 := p1.2 + multiplier * ny
  let xn2 := p1.1 - multiplier * nx
  let yn2 := p1.2 - multiplier * ny
  lineDrawC mask (pyInt xn1, pyInt yn1) (pyInt xn2, pyInt yn2)

/-- The boolean mask `divide_mask(...) > 0` fed to the labeling
primitive. -/
def binarize (m : MaskL) : MaskL :=
  m.map (fun row => row.map (fun v => if 0 < v then 1 else 0))

/-- Insertion into a sorted duplicate-free list (for `np.unique`). -/
def insertSorted (x : ℕ) : List ℕ → List ℕ
  | [] => [x]
  | a :: t => if x < a then x :: a :: t else if x = a then a :: t else a :: insertSorted x t

/-- Shallow embedding of `np.unique`: the sorted list of distinct values
(the order is irrelevant to `select_mask`'s result, but the embedding
keeps numpy's sorted-unique semantics). -/
def uniqueSorted (l : List ℕ) : List ℕ := l.foldr insertSorted []

/-- The vectorised zeroing `temp[temp == label_] = 0`. -/
def zeroOutLabel (lab : ℕ) (m : MaskL) : MaskL :=
  m.map (fun row => row.map (fun v => if v = lab then 0 else v))

/-- One iteration of the `for label_ in labels` loop of `select_mask`. -/
def selectStep (anchor : Pt) (temp : MaskL) (lab : ℕ) : MaskL :=
  if lab = 0 then temp
  else if getPixZ temp anchor.2 anchor.1 ≠ lab then zeroOutLabel lab temp else temp

/-- Embedding of `select_mask(mask, anchor)`: working on a copy, zero
out every non-zero label whose region does not contain the anchor
pixel. -/
def select_mask (mask : MaskL) (anchor : Pt) : MaskL :=
  (uniqueSorted mask.flatten).foldl (selectStep anchor) mask

/-!
Modelled external primitives: connectivity labeling
(`skimage.measure.label`, spec section 6) and the error side of contour
extraction.
-/

/-- Pointwise grid construction over the shape of `m`. -/
def gridMap (m : MaskL) (f : ℕ → ℕ → ℕ) : MaskL :=
  (List.range m.length).map (fun (y : ℕ) =>
    (List.range (m.getD y []).length).map (f y))

/-- Largest row length of a mask (used to mint unique initial labels). -/
def maxRowLen (m : MaskL) : ℕ := (m.map List.length).foldr max 0

/-- Modelled from the spec: initial labeling - every foreground pixel
gets a distinct positive label, background stays 0. -/
def labelInit (m : MaskL) : MaskL :=
  gridMap m (fun y x => if getPix m y x ≠ 0 then y * maxRowLen m + x + 1 else 0)

/-- The 8-connected neighborhood (plus the pixel itself). -/
def neighborOffsets : List (ℤ × ℤ) :=
  [(-1, -1), (-1, 0), (-1, 1), (0, -1), (0, 0), (0, 1), (1, -1), (1, 0), (1, 1)]

/-- Minimum positive label among a pixel and its neighbors. -/
def neighborMin (g : MaskL) (y x : ℕ) : ℕ :=
  neighborOffsets.foldl (fun acc d =>
    let v := getPixZ g ((y : ℤ) + d.1) ((x : ℤ) + d.2)
    if v ≠ 0 ∧ v < acc then v else acc) (getPix g y x)

/-- One label-propagation sweep: every foreground pixel takes the
minimum positive label of its 8-neighborhood. -/
def labelStep (g : MaskL) : MaskL :=
  gridMap g (fun y x => if getPix g y x = 0 then 0 else neighborMin g y x)

/-- Modelled from the spec: the external `skimage.measure.label`
connectivity-labeling primitive - "given a boolean/binary 2D array,
return an integer-labeled array where each ... connected foreground
component gets a unique positive label, background stays 0" (spec
section 6).  Iterated minimum-label propagation; the claims rely only
on the support-preservation property `labelC_support`. -/
def labelC (m : MaskL) : MaskL :=
  labelStep^[m.length * maxRowLen m] (labelInit m)

/-!
Embedding of `get_border_path` (`worm_morphology.py`, lines 7-19) and
the untyped crash it exhibits on empty input.
-/

/-- Error outcomes the Python code can produce or (per the spec) ought
to produce. -/
inductive PyError where
  | valueError : PyError
  | emptyInputError : PyError
  | geometryError : PyError
deriving DecidableEq, Repr

/-- Python's `max(xs, key=f)`: the first element attaining the maximal
key; `none` on an empty sequence (where Python raises `ValueError`). -/
def pyMaxBy (f : List Pt → ℚ) : List (List Pt) → Option (List Pt)
  | [] => none
  | c :: rest => some (rest.foldl (fun best x => if f best < f x then x else best) c)

/-- Embedding of `get_border_path(mask)`: `contours` is the output of
the external `cv2.findContours` on the mask, `area` the external
`cv2.contourArea`.  On a mask with no foreground pixels
`cv2.findContours` returns no contours and `max` raises an untyped
`ValueError` - not the typed `EmptyInputError` the spec prescribes
(claim C8).  The `squeeze()` of the source is a representational no-op
here (contour points are already flat pairs). -/
def get_border_pathE (contours : List (List Pt)) (area : List Pt → ℚ) :
    Except PyError (List Pt) :=
  match pyMaxBy area contours with
  | none => Except.error PyError.valueError
  | some p => Except.ok p

/-- Totalised variant used inside the orchestrator (the claims about
the orchestrator concern non-crashing runs; the crash case itself is
settled by claim C8 on `get_border_pathE`). -/
def get_border_pathT (contours : List (List Pt)) (area : List Pt → ℚ) : List Pt :=
  ((pyMaxBy area contours).getD [])

/-!
Embedding of the orchestrator `get_worm_masks`
(`worm_morphology.py`, lines 200-219), decomposed into named stages so
the theorems can speak about intermediate values.  `findC` is the
external `cv2.findContours`, `area` the external `cv2.contourArea`,
`fit` the external spline fit/evaluate pair (`splprep`/`splev`).
-/

/-- Stage `border = get_border_path(mask)`. -/
def wormBorder (findC : MaskL → List (List Pt)) (area : List Pt → ℚ)
    (mask : MaskL) : List Pt :=
  get_border_pathT (findC mask) area

/-- Stages `head_idx, tail_idx = get_endpoint_idx(border, second=True)`
followed by `check_head(border, head_idx, tail_idx, ant_mask)`. -/
noncomputable def wormHT (findC : MaskL → List (List Pt)) (area : List Pt → ℚ)
    (mask ant_mask : MaskL) : ℕ × ℕ :=
  check_head (wormBorder findC area mask)
    (get_endpoint_pairR (wormBorder findC area mask) 50).1
    (get_endpoint_pairR (wormBorder findC area mask) 50).2 ant_mask

/-- Stage `spline = get_spline(border, head_idx, tail_idx)`. -/
noncomputable def wormSpline (findC : MaskL → List (List Pt)) (area : List Pt → ℚ)
    (fit : List Pt → ℕ → List PtQ) (mask ant_mask : MaskL) : List PtQ :=
  get_spline fit (wormBorder findC area mask)
    (wormHT findC area mask ant_mask).1 (wormHT findC area mask ant_mask).2

/-- Stage `labeled_mask = label(divide_mask(mask, spline,
get_quantile_point(spline, quantile)) > 0)`. -/
noncomputable def wormLabeled (findC : MaskL → List (List Pt)) (area : List Pt → ℚ)
    (fit : List Pt → ℕ → List PtQ) (mask ant_mask : MaskL) (q : ℚ) : MaskL :=
  labelC (binarize (divide_mask mask (wormSpline findC area fit mask ant_mask)
    (get_quantile_point (wormSpline findC area fit mask ant_mask) q) 50 6))

/-- Embedding of `get_worm_masks(mask, ant_mask, quantile)`: the pair
`(select_mask(labeled, border[head_idx]),
select_mask(labeled, border[tail_idx]))`. -/
noncomputable def get_worm_masksE (findC : MaskL → List (List Pt))
    (area : List Pt → ℚ) (fit : List Pt → ℕ → List PtQ)
    (mask ant_mask : MaskL) (q : ℚ) : MaskL × MaskL :=
  (select_mask (wormLabeled findC area fit mask ant_mask q)
    ((wormBorder findC area mask).getD (wormHT findC area mask ant_mask).1 (0, 0)),
   select_mask (wormLabeled findC area fit mask ant_mask q)
    ((wormBorder findC area mask).getD (wormHT findC area mask ant_mask).2 (0, 0)))

/-!
Heap model for the frame claim (C7).  Python numpy arrays are mutable
objects; a store is a list of array values and an array reference is an
index into it.  `.copy()` allocates a fresh slot; an in-place library
write (`cv2.line(temp, ...)`, `temp[temp == label_] = 0`) writes
through the reference it is given.  The embedded store versions below
mirror, line by line, which reference each write of the source targets.
-/

/-- A store of numpy arrays. -/
abbrev Store : Type := List MaskL

/-- Dereference an array. -/
def readS (st : Store) (r : ℕ) : MaskL := st.getD r []

/-- Store semantics of `divide_mask`: `temp = mask.copy()` allocates,
`cv2.line(temp, ...)` writes through `temp`'s reference only.  Returns
the updated store and the reference of the returned array. -/
def divide_maskS (st : Store) (maskRef : ℕ) (path : List PtQ)
    (mid_point_idx space : ℕ) (multiplier : ℚ) : Store × ℕ :=
  let tempRef := st.length
  let st1 := st ++ [readS st maskRef]
  let st2 := st1.set tempRef
    (divide_mask (readS st maskRef) path mid_point_idx space multiplier)
  (st2, tempRef)

/-- Store semantics of one iteration of the `select_mask` loop: the
conditional `temp[temp == label_] = 0` writes through `temp`'s
reference only. -/
def selectStepS (anchor : Pt) (tempRef : ℕ) (st : Store) (lab : ℕ) : Store :=
  if lab = 0 then st
  else if getPixZ (readS st tempRef) anchor.2 anchor.1 ≠ lab
    then st.set tempRef (zeroOutLabel lab (readS st tempRef))
    else st

/-- Store semantics of `select_mask`: `temp = mask.copy()` allocates,
then the loop writes through `temp`'s reference. -/
def select_maskS (st : Store) (maskRef : ℕ) (anchor : Pt) : Store × ℕ :=
  let tempRef := st.length
  let st1 := st ++ [readS st maskRef]
  ((uniqueSorted (readS st1 tempRef).flatten).foldl (selectStepS anchor tempRef) st1,
    tempRef)

/-- Store semantics of the orchestrator `get_worm_masks`: every
intermediate array (`divide_mask` result, the labeled mask, the two
selected masks) lives in a fresh slot; the local rebinding
`ant_mask = select_mask(...)` of the source does not touch the caller's
array.  Returns the updated store and the references of the two result
arrays. -/
noncomputable def get_worm_masksS (findC : MaskL → List (List Pt))
    (area : List Pt → ℚ) (fit : List Pt → ℕ → List PtQ)
    (st : Store) (maskRef antRef : ℕ) (q : ℚ) : Store × (ℕ × ℕ) :=
  let border := get_border_pathT (findC (readS st maskRef)) area
  let ep := get_endpoint_pairR border 50
  let ht := check_head border ep.1 ep.2 (readS st antRef)
  let spline := get_spline fit border ht.1 ht.2
  let mid := get_quantile_point spline q
  let r1 := divide_maskS st maskRef spline mid 50 6
  let labeledRef := r1.1.length
  let st2 := r1.1 ++ [labelC (binarize (readS r1.1 r1.2))]
  let r2 := select_maskS st2 labeledRef (border.getD ht.1 (0, 0))
  let r3 := select_maskS r2.1 labeledRef (border.getD ht.2 (0, 0))
  (r3.1, (r2.2, r3.2))

/-!
Claim C2: guard band of the second endpoint.
-/

/-- Circular distance between two indices on a closed contour of
length `L`. -/
def bandDist (L a b : ℕ) : ℕ := min ((a + L - b) % L) ((b + L - a) % L)

/-- The property claimed in the spec: the second endpoint lies outside
the circular guard band `[primary - L/4, primary + L/4]` (mod `L`),
i.e. its circular distance from the primary endpoint exceeds `L/4`. -/
def outsideGuardBand (L primary second : ℕ) : Prop :=
  (L : ℚ) / 4 < (bandDist L primary second : ℚ)

instance (L p s : ℕ) : Decidable (outsideGuardBand L p s) := by
  unfold outsideGuardBand; infer_instance

/-- A 3x4-step rectangular closed contour of length 14 (unit steps,
consistent winding, no duplicate points): a legitimate closed contour
whose corners are the sharpest turns. -/
def rectPath14 : List Pt :=
  [(0, 0), (1, 0), (2, 0), (3, 0), (3, 1), (3, 2), (3, 3), (3, 4),
   (2, 4), (1, 4), (0, 4), (0, 3), (0, 2), (0, 1)]

/-- A synthetic elongated worm mask (spec section 8's test scenario): a
3x50 horizontal bar (rows 2..4, columns 1..50) on a 7x52 grid - a
single connected, elongated component. -/
def wormW : MaskL :=
  (List.range 7).map (fun (y : ℕ) => (List.range 52).map (fun (x : ℕ) =>
    if 2 ≤ y ∧ y ≤ 4 ∧ 1 ≤ x ∧ x ≤ 50 then 1 else 0))

/-- Anterior-reference mask marking the left half of the grid. -/
def wormA : MaskL :=
  (List.range 7).map (fun (_ : ℕ) => (List.range 52).map (fun (x : ℕ) =>
    if x ≤ 25 then 1 else 0))

/-- The outer contour of `wormW`: the 102 perimeter pixels of the bar
in a consistent winding (as `cv2.findContours` would produce). -/
def wormBorderPath : List Pt :=
  ((List.range 50).map (fun (k : ℕ) => ((1 + (k : ℤ), (2 : ℤ)) : Pt)))
  ++ [((50 : ℤ), (3 : ℤ)), ((50 : ℤ), (4 : ℤ))]
  ++ ((List.range 49).map (fun (k : ℕ) => ((49 - (k : ℤ), (4 : ℤ)) : Pt)))
  ++ [((1 : ℤ), (3 : ℤ))]

/-- Concrete contour-extraction external for the scenario. -/
def wormFindC : MaskL → List (List Pt) := fun _ => [wormBorderPath]

/-- Concrete contour-area external (a single contour, so any value). -/
def wormArea : List Pt → ℚ := fun _ => 1

/-- 70 evenly spaced points on the bar's true centerline `y = 3`, from
`x = 1` to `x = 50`. -/
def wormCenter : List PtQ :=
  (List.range 70).map (fun (k : ℕ) => ((1 + (k : ℚ) * 49 / 69, (3 : ℚ)) : PtQ))

/-- Concrete spline fit/evaluate external: the bar's centerline. -/
def wormFit : List Pt → ℕ → List PtQ := fun _ _ => wormCenter

/-- The exact-cover property the spec asserts for `get_worm_masks`: the
two returned masks never overlap on foreground, and a pixel is
foreground in one of them exactly when it is foreground in the input
mask. -/
def maskPairExactCover (pr : MaskL × MaskL) (mask : MaskL) : Prop :=
  (∀ y x : ℕ, ¬(getPix pr.1 y x ≠ 0 ∧ getPix pr.2 y x ≠ 0)) ∧
  (∀ y x : ℕ, (getPix pr.1 y x ≠ 0 ∨ getPix pr.2 y x ≠ 0) ↔ getPix mask y x ≠ 0)

theorem minIdxVal_spec [LinearOrder α] (a : α) (t : List α) (d : α) :
    (minIdxVal a t).1 ≤ t.length ∧
    (minIdxVal a t).2 = (a :: t).getD (minIdxVal a t).1 d ∧
    (∀ j < t.length + 1, (minIdxVal a t).2 ≤ (a :: t).getD j d) ∧
    (∀ j < (minIdxVal a t).1, (minIdxVal a t).2 < (a :: t).getD j d) := by
  induction t generalizing a with
  | nil =>
    refine ⟨le_refl _, by simp [minIdxVal], ?_, by simp [minIdxVal]⟩
    intro j hj
    match j with
    | 0 => simp [minIdxVal]
    | j + 1 => simp at hj
  | cons b t ih =>
    obtain ⟨ih1, ih2, ih3, ih4⟩ := ih b
    by_cases h : (minIdxVal b t).2 < a
    · have hd : minIdxVal a (b :: t) =
          ((minIdxVal b t).1 + 1, (minIdxVal b t).2) := by
        simp only [minIdxVal]; rw [if_pos h]
      refine ⟨?_, ?_, ?_, ?_⟩
      · rw [hd]; simpa using Nat.succ_le_succ ih1
      · rw [hd]; simpa using ih2
      · intro j hj
        rw [hd]
        match j with
        | 0 => simpa using le_of_lt h
        | j + 1 => simpa using ih3 j (by simpa using hj)
      · intro j hj
        rw [hd] at hj ⊢
        match j with
        | 0 => simpa using h
        | j + 1 => simpa using ih4 j (by simpa using hj)
    · have hd : minIdxVal a (b :: t) = (0, a) := by
        simp only [minIdxVal]; rw [if_neg h]
      refine ⟨by rw [hd]; exact Nat.zero_le _, by rw [hd]; simp, ?_, ?_⟩
      · intro j hj
        rw [hd]
        match j with
        | 0 => simp
        | j + 1 =>
          have := ih3 j (by simpa using hj)
          simp only [List.getD_cons_succ]
          exact le_trans (le_of_not_lt h) (by simpa using this)
      · intro j hj
        rw [hd] at hj
        simp at hj

theorem maxIdxVal_spec [LinearOrder α] (a : α) (t : List α) (d : α) :
    (maxIdxVal a t).1 ≤ t.length ∧
    (maxIdxVal a t).2 = (a :: t).getD (maxIdxVal a t).1 d ∧
    (∀ j < t.length + 1, (a :: t).getD j d ≤ (maxIdxVal a t).2) ∧
    (∀ j < (maxIdxVal a t).1, (a :: t).getD j d < (maxIdxVal a t).2) := by
  induction t generalizing a with
  | nil =>
    refine ⟨le_refl _, by simp [maxIdxVal], ?_, by simp [maxIdxVal]⟩
    intro j hj
    match j with
    | 0 => simp [maxIdxVal]
    | j + 1 => simp at hj
  | cons b t ih =>
    obtain ⟨ih1, ih2, ih3, ih4⟩ := ih b
    by_cases h : a < (maxIdxVal b t).2
    · have hd : maxIdxVal a (b :: t) =
          ((maxIdxVal b t).1 + 1, (maxIdxVal b t).2) := by
        simp only [maxIdxVal]; rw [if_pos h]
      refine ⟨?_, ?_, ?_, ?_⟩
      · rw [hd]; simpa using Nat.succ_le_succ ih1
      · rw [hd]; simpa using ih2
      · intro j hj
        rw [hd]
        match j with
        | 0 => simpa using le_of_lt h
        | j + 1 => simpa using ih3 j (by simpa using hj)
      · intro j hj
        rw [hd] at hj ⊢
        match j with
        | 0 => simpa using h
        | j + 1 => simpa using ih4 j (by simpa using hj)
    · have hd : maxIdxVal a (b :: t) = (0, a) := by
        simp only [maxIdxVal]; rw [if_neg h]
      refine ⟨by rw [hd]; exact Nat.zero_le _, by rw [hd]; simp, ?_, ?_⟩
      · intro j hj
        rw [hd]
        match j with
        | 0 => simp
        | j + 1 =>
          have := ih3 j (by simpa using hj)
          simp only [List.getD_cons_succ]
          exact le_trans (by simpa using this) (le_of_not_lt h)
      · intro j hj
        rw [hd] at hj
        simp at hj

theorem idxMinFirst_lt_length [LinearOrder α] (l : List α) (h : l ≠ []) :
    idxMinFirst l < l.length := by
  match l with
  | [] => simp at h
  | a :: t =>
    simp only [idxMinFirst, List.length_cons]
    exact Nat.lt_succ_of_le (minIdxVal_spec a t a).1

theorem idxMaxFirst_lt_length [LinearOrder α] (l : List α) (h : l ≠ []) :
    idxMaxFirst l < l.length := by
  match l with
  | [] => simp at h
  | a :: t =>
    simp only [idxMaxFirst, List.length_cons]
    exact Nat.lt_succ_of_le (maxIdxVal_spec a t a).1

theorem idxMinFirst_min [LinearOrder α] (a : α) (t : List α) (d : α) :
    ∀ j < t.length + 1,
      (a :: t).getD (idxMinFirst (a :: t)) d ≤ (a :: t).getD j d := by
  intro j hj
  obtain ⟨_, h2, h3, _⟩ := minIdxVal_spec a t d
  simpa only [idxMinFirst, ← h2] using h3 j hj

theorem idxMinFirst_first [LinearOrder α] (a : α) (t : List α) (d : α) :
    ∀ j < idxMinFirst (a :: t),
      (a :: t).getD (idxMinFirst (a :: t)) d < (a :: t).getD j d := by
  intro j hj
  obtain ⟨_, h2, _, h4⟩ := minIdxVal_spec a t d
  simpa only [idxMinFirst, ← h2] using h4 j hj

theorem maxIdxVal_val_mem [LinearOrder α] (a : α) (t : List α) :
    (maxIdxVal a t).2 ∈ a :: t := by
  obtain ⟨h1, h2, _, _⟩ := maxIdxVal_spec a t a
  have hlt : (maxIdxVal a t).1 < (a :: t).length := by
    simp only [List.length_cons]; exact Nat.lt_succ_of_le h1
  rw [h2, List.getD_eq_getElem _ _ hlt]
  exact List.getElem_mem hlt

/-- If `g` reverses the order of the elements of `a :: t`, then the first
minimum of the image list is located at the first maximum of the original
list, and its value is the image of the original maximum.  This is the
bridge between `np.argmin` over `arccos`-angles and an argmax over the
underlying cosines (`arccos` is strictly decreasing). -/
theorem minIdxVal_map_anti [LinearOrder α] [LinearOrder β] (g : α → β) (a : α) (t : List α)
    (hg : ∀ x ∈ a :: t, ∀ y ∈ a :: t, x < y → g y < g x) :
    minIdxVal (g a) (t.map g) = ((maxIdxVal a t).1, g (maxIdxVal a t).2) := by
  induction t generalizing a with
  | nil => simp [minIdxVal, maxIdxVal]
  | cons b t ih =>
    have hg' : ∀ x ∈ b :: t, ∀ y ∈ b :: t, x < y → g y < g x := by
      intro x hx y hy hxy
      exact hg x (List.mem_cons_of_mem a hx) y (List.mem_cons_of_mem a hy) hxy
    have hmem : (maxIdxVal b t).2 ∈ a :: b :: t :=
      List.mem_cons_of_mem a (maxIdxVal_val_mem b t)
    have hamem : a ∈ a :: b :: t := List.mem_cons_self a _
    have hcond : g (maxIdxVal b t).2 < g a ↔ a < (maxIdxVal b t).2 := by
      constructor
      · intro hlt
        rcases lt_trichotomy a (maxIdxVal b t).2 with h | h | h
        · exact h
        · rw [h] at hlt; exact absurd hlt (lt_irrefl _)
        · exact absurd (hg _ hmem _ hamem h) (not_lt_of_lt hlt)
      · intro hlt
        exact hg _ hamem _ hmem hlt
    simp only [List.map_cons, minIdxVal, maxIdxVal, ih b hg']
    by_cases h : a < (maxIdxVal b t).2
    · rw [if_pos (hcond.mpr h), if_pos h]
    · rw [if_neg (fun hc => h (hcond.mp hc)), if_neg h]

theorem idxMinFirst_map_anti [LinearOrder α] [LinearOrder β] (g : α → β) (l : List α)
    (hg : ∀ x ∈ l, ∀ y ∈ l, x < y → g y < g x) :
    idxMinFirst (l.map g) = idxMaxFirst l := by
  match l with
  | [] => simp [idxMinFirst, idxMaxFirst]
  | a :: t =>
    simp only [List.map_cons, idxMinFirst, idxMaxFirst, minIdxVal_map_anti g a t hg]

theorem norm2_nonneg (u : Pt) : 0 ≤ norm2 u := by
  unfold norm2; nlinarith [sq_nonneg u.1, sq_nonneg u.2]

/-- Cauchy-Schwarz for integer 2-d vectors. -/
theorem dotZ_sq_le (u v : Pt) : (dotZ u v) ^ 2 ≤ norm2 u * norm2 v := by
  unfold dotZ norm2
  nlinarith [sq_nonneg (u.1 * v.2 - u.2 * v.1)]

theorem sgnSqrt_strictMono : StrictMono sgnSqrt := by
  intro x y hxy
  unfold sgnSqrt
  rcases le_or_lt 0 x with hx | hx
  · rw [if_pos hx, if_pos (le_of_lt (lt_of_le_of_lt hx hxy))]
    exact Real.sqrt_lt_sqrt (by exact_mod_cast hx) (by exact_mod_cast hxy)
  · rw [if_neg (not_le.mpr hx)]
    rcases le_or_lt 0 y with hy | hy
    · rw [if_pos hy]
      have h1 : (0 : ℝ) < Real.sqrt ((-x : ℚ) : ℝ) := by
        rw [Real.sqrt_pos]; exact_mod_cast neg_pos.mpr hx
      exact lt_of_lt_of_le (neg_neg_iff_pos.mpr h1) (Real.sqrt_nonneg _)
    · rw [if_neg (not_le.mpr hy)]
      have : Real.sqrt ((-y : ℚ) : ℝ) < Real.sqrt ((-x : ℚ) : ℝ) := by
        apply Real.sqrt_lt_sqrt
        · exact_mod_cast (neg_nonneg.mpr (le_of_lt hy))
        · exact_mod_cast (neg_lt_neg hxy)
      linarith

theorem abs_sgnSqrt_le_one {q : ℚ} (h1 : -1 ≤ q) (h2 : q ≤ 1) :
    -1 ≤ sgnSqrt q ∧ sgnSqrt q ≤ 1 := by
  unfold sgnSqrt
  rcases le_or_lt 0 q with hq | hq
  · rw [if_pos hq]
    constructor
    · exact le_trans (by norm_num) (Real.sqrt_nonneg _)
    · rw [show (1 : ℝ) = Real.sqrt 1 by rw [Real.sqrt_one]]
      exact Real.sqrt_le_sqrt (by exact_mod_cast h2)
  · rw [if_neg (not_le.mpr hq)]
    constructor
    · rw [neg_le_neg_iff, show (1 : ℝ) = Real.sqrt 1 by rw [Real.sqrt_one]]
      exact Real.sqrt_le_sqrt (by exact_mod_cast (neg_le.mpr h1))
    · exact le_trans (neg_nonpos_of_nonneg (Real.sqrt_nonneg _)) (by norm_num)

theorem clipR_eq_self {x : ℝ} (h1 : -1 ≤ x) (h2 : x ≤ 1) : clipR x = x := by
  unfold clipR
  rw [max_eq_right h1, min_eq_right h2]

/-- On keys lying in `[-1, 1]` (which Cauchy-Schwarz guarantees),
`keyToAngle` is strictly decreasing. -/
theorem keyToAngle_anti {x y : ℚ} (hx : -1 ≤ x) (hy : y ≤ 1) (hxy : x < y) :
    keyToAngle y < keyToAngle x := by
  have hx' : x ≤ 1 := le_of_lt (lt_of_lt_of_le hxy hy)
  have hy' : -1 ≤ y := le_of_lt (lt_of_le_of_lt hx hxy)
  obtain ⟨hxa, hxb⟩ := abs_sgnSqrt_le_one hx hx'
  obtain ⟨hya, hyb⟩ := abs_sgnSqrt_le_one hy' hy
  unfold keyToAngle
  rw [clipR_eq_self hxa hxb, clipR_eq_self hya hyb]
  exact Real.strictAntiOn_arccos ⟨hxa, hxb⟩ ⟨hya, hyb⟩ (sgnSqrt_strictMono hxy)

theorem pathForward_length (path : List Pt) (s : ℕ) :
    (pathForward path s).length = path.length := by
  unfold pathForward
  rw [List.length_append, List.length_drop, List.length_take]
  omega

theorem pathBackward_length (path : List Pt) (s : ℕ) :
    (pathBackward path s).length = path.length := by
  unfold pathBackward
  rw [List.length_append, List.length_drop, List.length_take]
  omega

theorem vecForward_length (path : List Pt) (s : ℕ) :
    (vecForward path s).length = path.length := by
  simp [vecForward, pathForward_length]

theorem vecBackward_length (path : List Pt) (s : ℕ) :
    (vecBackward path s).length = path.length := by
  simp [vecBackward, pathBackward_length]

theorem dotList_length (path : List Pt) (s : ℕ) :
    (dotList path s).length = path.length := by
  simp [dotList, vecForward_length, vecBackward_length]

theorem normSqF_length (path : List Pt) (s : ℕ) :
    (normSqF path s).length = path.length := by
  simp [normSqF, vecForward_length]

theorem normSqB_length (path : List Pt) (s : ℕ) :
    (normSqB path s).length = path.length := by
  simp [normSqB, vecBackward_length]

theorem denomSq_length (path : List Pt) (s : ℕ) :
    (denomSq path s).length = path.length := by
  simp [denomSq, normSqF_length, normSqB_length]

theorem cosKeys_length (path : List Pt) (s : ℕ) :
    (cosKeys path s).length = path.length := by
  simp [cosKeys, dotList_length, denomSq_length]

theorem cosList_length (path : List Pt) (s : ℕ) :
    (cosList path s).length = path.length := by
  unfold cosList
  rw [List.length_zipWith, List.length_zipWith, dotList_length, normSqF_length,
    normSqB_length]
  omega

theorem anglesR_length (path : List Pt) (s : ℕ) :
    (anglesR path s).length = path.length := by
  simp [anglesR, cosList_length]

/-- Pointwise form of the cosine/key correspondence: with non-zero
squared norms, the source's cosine `d / (√nf · √nb)` equals the signed
square root of the computable key. -/
theorem cos_eq_sgnSqrt_key (d nf nb : ℤ) (hnf : 0 ≤ nf) (hnb : 0 ≤ nb)
    (hf : nf ≠ 0) (hb : nb ≠ 0) :
    (d : ℝ) / (Real.sqrt (nf : ℝ) * Real.sqrt (nb : ℝ)) = sgnSqrt (cosKey d (nf * nb)) := by
  have hnfR : (0 : ℝ) ≤ (nf : ℝ) := by exact_mod_cast hnf
  have hnbR : (0 : ℝ) ≤ (nb : ℝ) := by exact_mod_cast hnb
  have hm : (0 : ℤ) < nf * nb := by
    rcases lt_of_le_of_ne hnf (Ne.symm hf) with h1
    rcases lt_of_le_of_ne hnb (Ne.symm hb) with h2
    positivity
  have hmR : (0 : ℝ) < ((nf * nb : ℤ) : ℝ) := by exact_mod_cast hm
  have hmQ : ((nf * nb : ℤ) : ℚ) ≠ 0 := by exact_mod_cast ne_of_gt hm
  have hsqrtmul : Real.sqrt (nf : ℝ) * Real.sqrt (nb : ℝ) = Real.sqrt ((nf * nb : ℤ) : ℝ) := by
    push_cast
    rw [Real.sqrt_mul hnfR]
  rw [hsqrtmul]
  unfold cosKey sgnSqrt
  rcases le_or_lt 0 d with hd | hd
  · rw [if_pos hd]
    have hkey : (0 : ℚ) ≤ (d ^ 2 : ℚ) / ((nf * nb : ℤ) : ℚ) := by
      apply div_nonneg
      · positivity
      · exact_mod_cast le_of_lt hm
    rw [if_pos hkey]
    have hc : (((d ^ 2 : ℚ) / ((nf * nb : ℤ) : ℚ) : ℚ) : ℝ)
        = ((d : ℝ) ^ 2) / ((nf * nb : ℤ) : ℝ) := by
      push_cast; ring
    rw [hc, Real.sqrt_div (by positivity), Real.sqrt_sq (by exact_mod_cast hd)]
  · rw [if_neg (not_le.mpr hd)]
    have hpos : (0 : ℚ) < (d ^ 2 : ℚ) / ((nf * nb : ℤ) : ℚ) := by
      apply div_pos
      · have : (d : ℚ) ≠ 0 := by exact_mod_cast ne_of_lt hd
        positivity
      · exact_mod_cast hm
    rw [if_neg (by simp only [neg_nonneg, not_le]; exact hpos)]
    have hc : ((-(-((d ^ 2 : ℚ) / ((nf * nb : ℤ) : ℚ))) : ℚ) : ℝ)
        = ((d : ℝ) ^ 2) / ((nf * nb : ℤ) : ℝ) := by
      push_cast; ring
    rw [hc, Real.sqrt_div (by positivity), Real.sqrt_sq_eq_abs,
      abs_of_neg (by exact_mod_cast hd)]
    field_simp

theorem cosKey_bounds (d m : ℤ) (hm : 0 < m) (hcs : d ^ 2 ≤ m) :
    -1 ≤ cosKey d m ∧ cosKey d m ≤ 1 := by
  have hmQ : (0 : ℚ) < (m : ℚ) := by exact_mod_cast hm
  have hnum : (0 : ℚ) ≤ (d ^ 2 : ℚ) := by positivity
  have hle : (d ^ 2 : ℚ) / (m : ℚ) ≤ 1 := by
    rw [div_le_one hmQ]; exact_mod_cast hcs
  have hge : (0 : ℚ) ≤ (d ^ 2 : ℚ) / (m : ℚ) := div_nonneg hnum (le_of_lt hmQ)
  unfold cosKey
  split
  · exact ⟨le_trans (by norm_num) hge, hle⟩
  · constructor
    · simpa using hle
    · exact le_trans (neg_nonpos_of_nonneg hge) (by norm_num)

/-- Element-wise description of `cosKeys`. -/
theorem cosKeys_getElem (path : List Pt) (s : ℕ) (i : ℕ) (hi : i < path.length) :
    ∃ (u v : Pt), u ∈ vecForward path s ∧ v ∈ vecBackward path s ∧
      (cosKeys path s).getD i 0 = cosKey (dotZ u v) (norm2 u * norm2 v) := by
  have hif : i < (vecForward path s).length := by rw [vecForward_length]; exact hi
  have hib : i < (vecBackward path s).length := by rw [vecBackward_length]; exact hi
  have h1 : i < (cosKeys path s).length := by rw [cosKeys_length]; exact hi
  have h2 : i < (dotList path s).length := by rw [dotList_length]; exact hi
  have h3 : i < (denomSq path s).length := by rw [denomSq_length]; exact hi
  have h4 : i < (normSqF path s).length := by rw [normSqF_length]; exact hi
  have h5 : i < (normSqB path s).length := by rw [normSqB_length]; exact hi
  refine ⟨(vecForward path s)[i], (vecBackward path s)[i],
    List.getElem_mem hif, List.getElem_mem hib, ?_⟩
  rw [List.getD_eq_getElem _ _ h1]
  unfold cosKeys
  rw [List.getElem_zipWith]
  congr 1
  · show (dotList path s)[i] = dotZ ((vecForward path s)[i]) ((vecBackward path s)[i])
    unfold dotList
    rw [List.getElem_zipWith]
  · show (denomSq path s)[i] = norm2 ((vecForward path s)[i]) * norm2 ((vecBackward path s)[i])
    unfold denomSq
    rw [List.getElem_zipWith]
    unfold normSqF normSqB
    rw [List.getElem_map, List.getElem_map]

/-- With no zero-length shift vectors, the angle list is exactly the
image of the computable key list under `keyToAngle`. -/
theorem anglesR_eq_map_keys (path : List Pt) (s : ℕ) (h : noZeroVec path s) :
    anglesR path s = (cosKeys path s).map keyToAngle := by
  apply List.ext_getElem
  · rw [anglesR_length, List.length_map, cosKeys_length]
  · intro i hi1 hi2
    have hin : i < path.length := by rw [← anglesR_length path s]; exact hi1
    have hif : i < (vecForward path s).length := by rw [vecForward_length]; exact hin
    have hib : i < (vecBackward path s).length := by rw [vecBackward_length]; exact hin
    have h2 : i < (dotList path s).length := by rw [dotList_length]; exact hin
    have h4 : i < (normSqF path s).length := by rw [normSqF_length]; exact hin
    have h5 : i < (normSqB path s).length := by rw [normSqB_length]; exact hin
    have h6 : i < (cosList path s).length := by rw [cosList_length]; exact hin
    have h7 : i < (denomSq path s).length := by rw [denomSq_length]; exact hin
    have h8 : i < (cosKeys path s).length := by rw [cosKeys_length]; exact hin
    unfold anglesR
    rw [List.getElem_map, List.getElem_map]
    unfold keyToAngle
    congr 2
    show (cosList path s)[i] = sgnSqrt ((cosKeys path s)[i])
    unfold cosList cosKeys
    rw [List.getElem_zipWith, List.getElem_zipWith, List.getElem_zipWith]
    unfold denomSq
    rw [List.getElem_zipWith]
    set u := (vecForward path s)[i] with hu
    set v := (vecBackward path s)[i] with hv
    have hfm : (normSqF path s)[i] = norm2 u := by
      unfold normSqF; rw [List.getElem_map]
    have hbm : (normSqB path s)[i] = norm2 v := by
      unfold normSqB; rw [List.getElem_map]
    have hdm : (dotList path s)[i] = dotZ u v := by
      unfold dotList; rw [List.getElem_zipWith]
    rw [hfm, hbm, hdm]
    exact cos_eq_sgnSqrt_key (dotZ u v) (norm2 u) (norm2 v) (norm2_nonneg u)
      (norm2_nonneg v) (h.1 u (List.getElem_mem hif)) (h.2 v (List.getElem_mem hib))

theorem cosKeys_mem_bounds (path : List Pt) (s : ℕ) (h : noZeroVec path s) :
    ∀ q ∈ cosKeys path s, -1 ≤ q ∧ q ≤ 1 := by
  intro q hq
  obtain ⟨i, hi, hiq⟩ := List.mem_iff_getElem.mp hq
  have hin : i < path.length := by rw [← cosKeys_length path s]; exact hi
  obtain ⟨u, v, hu, hv, hkey⟩ := cosKeys_getElem path s i hin
  rw [List.getD_eq_getElem _ _ hi, hiq] at hkey
  have hmf : 0 < norm2 u := lt_of_le_of_ne (norm2_nonneg u) (Ne.symm (h.1 u hu))
  have hmb : 0 < norm2 v := lt_of_le_of_ne (norm2_nonneg v) (Ne.symm (h.2 v hv))
  rw [hkey]
  exact cosKey_bounds _ _ (mul_pos hmf hmb) (dotZ_sq_le u v)

/-- The real (`arccos`) primary-endpoint index coincides with the
computable key-based one whenever no shift vector is zero. -/
theorem get_endpoint_idx_R_eq_C (path : List Pt) (s : ℕ) (h : noZeroVec path s) :
    get_endpoint_idxR path s = get_endpoint_idxC path s := by
  unfold get_endpoint_idxR get_endpoint_idxC
  rw [anglesR_eq_map_keys path s h]
  apply idxMinFirst_map_anti
  intro x hx y hy hxy
  exact keyToAngle_anti (cosKeys_mem_bounds path s h x hx).1
    (cosKeys_mem_bounds path s h y hy).2 hxy

/-- The second-endpoint computation on real angles coincides with the
computable key-based one. -/
theorem get_second_endpoint_R_eq_C (path : List Pt) (s : ℕ) (idx : ℕ)
    (h : noZeroVec path s) :
    get_second_endpoint path (anglesR path s) idx
      = get_second_endpointMax path (cosKeys path s) idx := by
  unfold get_second_endpoint get_second_endpointMax
  dsimp only
  rw [anglesR_eq_map_keys path s h]
  have hrot : ((cosKeys path s).map keyToAngle).drop idx
      ++ ((cosKeys path s).map keyToAngle).take idx
      = ((cosKeys path s).drop idx ++ (cosKeys path s).take idx).map keyToAngle := by
    rw [List.map_append, List.map_drop, List.map_take]
  rw [hrot]
  set rk := (cosKeys path s).drop idx ++ (cosKeys path s).take idx with hrk
  have hmemrk : ∀ q ∈ rk, -1 ≤ q ∧ q ≤ 1 := by
    intro q hq
    rw [hrk] at hq
    rcases List.mem_append.mp hq with hq | hq
    · exact cosKeys_mem_bounds path s h q (List.mem_of_mem_drop hq)
    · exact cosKeys_mem_bounds path s h q (List.mem_of_mem_take hq)
  by_cases hskip : path.length / 4 = 0
  · rw [if_pos hskip, if_pos hskip]
    rfl
  · rw [if_neg hskip, if_neg hskip, List.length_map]
    have hmid : ((rk.map keyToAngle).drop (path.length / 4)).take
        (rk.length - 2 * (path.length / 4))
        = ((rk.drop (path.length / 4)).take (rk.length - 2 * (path.length / 4))).map keyToAngle := by
      rw [List.map_take, List.map_drop]
    rw [hmid]
    have hmm : idxMinFirst (((rk.drop (path.length / 4)).take
        (rk.length - 2 * (path.length / 4))).map keyToAngle)
        = idxMaxFirst ((rk.drop (path.length / 4)).take
          (rk.length - 2 * (path.length / 4))) := by
      apply idxMinFirst_map_anti
      intro x hx y hy hxy
      have hx' := hmemrk x (List.mem_of_mem_drop (List.mem_of_mem_take hx))
      have hy' := hmemrk y (List.mem_of_mem_drop (List.mem_of_mem_take hy))
      exact keyToAngle_anti hx'.1 hy'.2 hxy
    rw [hmm]

/-- Full equivalence for `get_endpoint_idx(path, space, second=True)`. -/
theorem get_endpoint_pair_R_eq_C (path : List Pt) (s : ℕ) (h : noZeroVec path s) :
    get_endpoint_pairR path s = get_endpoint_pairC path s := by
  unfold get_endpoint_pairR get_endpoint_pairC
  rw [get_endpoint_idx_R_eq_C path s h, get_second_endpoint_R_eq_C path s _ h]

/-- Comparing Euclidean norms is the same as comparing the squared
distances: the justification for embedding the source's norm comparison
by `sqDistQ`. -/
theorem sqDist_sqrt_lt_iff (a b : ℚ) (ha : 0 ≤ a) :
    Real.sqrt (a : ℝ) < Real.sqrt (b : ℝ) ↔ a < b := by
  rw [Real.sqrt_lt_sqrt_iff (by exact_mod_cast ha)]
  exact_mod_cast Iff.rfl

theorem sqDistQ_nonneg (p q : PtQ) : 0 ≤ sqDistQ p q := by
  unfold sqDistQ; positivity

theorem cumsumL_nonneg (l : List ℝ) (h : ∀ x ∈ l, 0 ≤ x) :
    ∀ y ∈ cumsumL l, 0 ≤ y := by
  induction l with
  | nil => simp [cumsumL]
  | cons a t ih =>
    intro y hy
    simp only [cumsumL, List.mem_cons, List.mem_map] at hy
    rcases hy with hy | ⟨x, hx, hxy⟩
    · rw [hy]; exact h a (List.mem_cons_self a t)
    · have h1 := ih (fun x hx => h x (List.mem_cons_of_mem a hx)) x hx
      have h2 := h a (List.mem_cons_self a t)
      rw [← hxy]; linarith

theorem cumsumL_sorted (l : List ℝ) (h : ∀ x ∈ l, 0 ≤ x) :
    (cumsumL l).Sorted (· ≤ ·) := by
  induction l with
  | nil => simp [cumsumL]
  | cons a t ih =>
    have ht : ∀ x ∈ t, (0 : ℝ) ≤ x := fun x hx => h x (List.mem_cons_of_mem a hx)
    rw [cumsumL, List.sorted_cons]
    constructor
    · intro b hb
      obtain ⟨x, hx, hxb⟩ := List.mem_map.mp hb
      have := cumsumL_nonneg t ht x hx
      rw [← hxb]; linarith
    · exact List.Pairwise.map _ (fun x y hxy => add_le_add_left hxy a) (ih ht)

theorem diffDists_nonneg (pts : List PtQ) : ∀ x ∈ diffDists pts, 0 ≤ x := by
  intro x hx
  obtain ⟨pq, _, hpq⟩ := List.mem_map.mp hx
  rw [← hpq]
  exact Real.sqrt_nonneg _

theorem cumDist_sorted (pts : List PtQ) : (cumDist pts).Sorted (· ≤ ·) :=
  cumsumL_sorted _ (diffDists_nonneg pts)

theorem cumDist_nonneg (pts : List PtQ) : ∀ y ∈ cumDist pts, 0 ≤ y :=
  cumsumL_nonneg _ (diffDists_nonneg pts)

/-- Wrapper for the minimum property of `idxMinFirst`. -/
theorem idxMinFirst_le_all [LinearOrder α] (l : List α) (d : α) :
    ∀ j < l.length, l.getD (idxMinFirst l) d ≤ l.getD j d := by
  match l with
  | [] => intro j hj; simp at hj
  | a :: t =>
    intro j hj
    obtain ⟨_, h2, h3, _⟩ := minIdxVal_spec a t d
    have := h3 j (by simpa using hj)
    simpa only [idxMinFirst, ← h2] using this

/-- Wrapper for the strictly-first property of `idxMinFirst`. -/
theorem idxMinFirst_lt_before [LinearOrder α] (l : List α) (d : α) :
    ∀ j < idxMinFirst l, l.getD (idxMinFirst l) d < l.getD j d := by
  match l with
  | [] => intro j hj; simp [idxMinFirst] at hj
  | a :: t =>
    intro j hj
    obtain ⟨_, h2, _, h4⟩ := minIdxVal_spec a t d
    have := h4 j (by simpa only [idxMinFirst] using hj)
    simpa only [idxMinFirst, ← h2] using this

/-- Sorted lists are monotone in `getD` over in-range indices. -/
theorem sorted_getD_mono (c : List ℝ) (hc : c.Sorted (· ≤ ·)) (i j : ℕ)
    (hij : i ≤ j) (hj : j < c.length) : c.getD i 0 ≤ c.getD j 0 := by
  have hi : i < c.length := lt_of_le_of_lt hij hj
  rw [List.getD_eq_getElem _ _ hi, List.getD_eq_getElem _ _ hj]
  rcases lt_or_eq_of_le hij with h | h
  · have := List.pairwise_iff_get.mp hc ⟨i, hi⟩ ⟨j, hj⟩ h
    simpa [List.get_eq_getElem] using this
  · subst h; exact le_refl _

/-- Monotonicity of the first-arg-min of `|c - t|` over a sorted list
`c`, as a function of the target `t`: the selected cumulative value is
monotone in the target. -/
theorem argminAbs_mono (c : List ℝ) (t1 t2 : ℝ) (hc : c.Sorted (· ≤ ·))
    (hne : c ≠ []) (ht : t1 ≤ t2) :
    c.getD (idxMinFirst (c.map (fun x => |x - t1|))) 0
      ≤ c.getD (idxMinFirst (c.map (fun x => |x - t2|))) 0 := by
  set i1 := idxMinFirst (c.map (fun x => |x - t1|)) with hi1
  set i2 := idxMinFirst (c.map (fun x => |x - t2|)) with hi2
  have hmapne1 : c.map (fun x => |x - t1|) ≠ [] := by
    simpa using hne
  have hmapne2 : c.map (fun x => |x - t2|) ≠ [] := by
    simpa using hne
  have hi1lt : i1 < c.length := by
    have := idxMinFirst_lt_length _ hmapne1
    simpa using this
  have hi2lt : i2 < c.length := by
    have := idxMinFirst_lt_length _ hmapne2
    simpa using this
  by_contra hcon
  push_neg at hcon
  have hi21 : i2 < i1 := by
    by_contra hle
    push_neg at hle
    exact absurd (sorted_getD_mono c hc i1 i2 hle hi2lt) (not_le.mpr hcon)
  have habs : ∀ (j : ℕ) (hj : j < c.length) (t : ℝ),
      (c.map (fun x => |x - t|)).getD j 0 = |c.getD j 0 - t| := by
    intro j hj t
    have hjm : j < (c.map (fun x => |x - t|)).length := by simpa using hj
    rw [List.getD_eq_getElem _ _ hjm, List.getElem_map,
      List.getD_eq_getElem _ _ hj]
  have h1 : |c.getD i1 0 - t1| < |c.getD i2 0 - t1| := by
    have := idxMinFirst_lt_before (c.map (fun x => |x - t1|)) 0 i2 (by rw [← hi1]; exact hi21)
    rw [habs i2 hi2lt t1] at this
    rw [← hi1] at this
    rw [habs i1 hi1lt t1] at this
    exact this
  have h2 : |c.getD i2 0 - t2| ≤ |c.getD i1 0 - t2| := by
    have := idxMinFirst_le_all (c.map (fun x => |x - t2|)) 0 i1 (by simpa using hi1lt)
    rw [habs i1 hi1lt t2] at this
    rw [← hi2] at this
    rw [habs i2 hi2lt t2] at this
    exact this
  set a := c.getD i2 0
  set b := c.getD i1 0
  have hab : a < b := hcon
  have hsq1 : (b - t1) ^ 2 < (a - t1) ^ 2 := by
    have := pow_lt_pow_left₀ h1 (abs_nonneg _) (by norm_num : (2 : ℕ) ≠ 0)
    simpa [sq_abs] using this
  have hsq2 : (a - t2) ^ 2 ≤ (b - t2) ^ 2 := by
    have := pow_le_pow_left₀ (abs_nonneg _) h2 2
    simpa [sq_abs] using this
  nlinarith [hsq1, hsq2, hab, ht]

theorem minIdxVal_val_mem [LinearOrder α] (a : α) (t : List α) :
    (minIdxVal a t).2 ∈ a :: t := by
  obtain ⟨h1, h2, _, _⟩ := minIdxVal_spec a t a
  have hlt : (minIdxVal a t).1 < (a :: t).length := by
    simp only [List.length_cons]; exact Nat.lt_succ_of_le h1
  rw [h2, List.getD_eq_getElem _ _ hlt]
  exact List.getElem_mem hlt

/-- A strictly monotone map preserves the location of the first minimum. -/
theorem minIdxVal_map_mono [LinearOrder α] [LinearOrder β] (g : α → β) (a : α) (t : List α)
    (hg : ∀ x ∈ a :: t, ∀ y ∈ a :: t, x < y → g x < g y) :
    minIdxVal (g a) (t.map g) = ((minIdxVal a t).1, g (minIdxVal a t).2) := by
  induction t generalizing a with
  | nil => simp [minIdxVal]
  | cons b t ih =>
    have hg' : ∀ x ∈ b :: t, ∀ y ∈ b :: t, x < y → g x < g y := by
      intro x hx y hy hxy
      exact hg x (List.mem_cons_of_mem a hx) y (List.mem_cons_of_mem a hy) hxy
    have hmem : (minIdxVal b t).2 ∈ a :: b :: t :=
      List.mem_cons_of_mem a (minIdxVal_val_mem b t)
    have hamem : a ∈ a :: b :: t := List.mem_cons_self a _
    have hcond : g (minIdxVal b t).2 < g a ↔ (minIdxVal b t).2 < a := by
      constructor
      · intro hlt
        rcases lt_trichotomy (minIdxVal b t).2 a with h | h | h
        · exact h
        · rw [h] at hlt; exact absurd hlt (lt_irrefl _)
        · exact absurd (hg _ hamem _ hmem h) (not_lt_of_lt hlt)
      · intro hlt
        exact hg _ hmem _ hamem hlt
    simp only [List.map_cons, minIdxVal, ih b hg']
    by_cases h : (minIdxVal b t).2 < a
    · rw [if_pos (hcond.mpr h), if_pos h]
    · rw [if_neg (fun hc => h (hcond.mp hc)), if_neg h]

theorem idxMinFirst_map_mono [LinearOrder α] [LinearOrder β] (g : α → β) (l : List α)
    (hg : ∀ x ∈ l, ∀ y ∈ l, x < y → g x < g y) :
    idxMinFirst (l.map g) = idxMinFirst l := by
  match l with
  | [] => simp [idxMinFirst]
  | a :: t =>
    simp only [List.map_cons, idxMinFirst, minIdxVal_map_mono g a t hg]

theorem diffDists_eq_cast (pts : List PtQ) (h : allPerfSq pts) :
    diffDists pts = (diffDistsQ pts).map (fun (x : ℚ) => (x : ℝ)) := by
  unfold diffDists diffDistsQ
  rw [List.map_map]
  apply List.map_congr_left
  intro pq hpq
  have hps := h pq hpq
  have hnn := Rat.sqrt_nonneg (sqDistQ pq.2 pq.1)
  show Real.sqrt ((sqDistQ pq.2 pq.1 : ℚ) : ℝ) = ((Rat.sqrt (sqDistQ pq.2 pq.1) : ℚ) : ℝ)
  have hcast : ((sqDistQ pq.2 pq.1 : ℚ) : ℝ)
      = ((Rat.sqrt (sqDistQ pq.2 pq.1) : ℚ) : ℝ)
        * ((Rat.sqrt (sqDistQ pq.2 pq.1) : ℚ) : ℝ) := by
    exact_mod_cast hps.symm
  rw [hcast, Real.sqrt_mul_self (by exact_mod_cast hnn)]

theorem cumsumL_map_cast (l : List ℚ) :
    cumsumL (l.map (fun (x : ℚ) => (x : ℝ))) = (cumsumL l).map (fun (x : ℚ) => (x : ℝ)) := by
  induction l with
  | nil => simp [cumsumL]
  | cons a t ih =>
    simp only [List.map_cons, cumsumL, ih, List.map_map]
    congr 1
    apply List.map_congr_left
    intro x _
    simp only [Function.comp_apply]
    push_cast
    ring

theorem getLastD_map_cast (l : List ℚ) :
    (l.map (fun (x : ℚ) => (x : ℝ))).getLastD 0 = ((l.getLastD 0 : ℚ) : ℝ) := by
  have key : ∀ (d : ℚ), (l.map (fun (x : ℚ) => (x : ℝ))).getLastD ((d : ℚ) : ℝ)
      = ((l.getLastD d : ℚ) : ℝ) := by
    induction l with
    | nil => intro d; simp
    | cons a t ih =>
      intro d
      simp only [List.map_cons, List.getLastD_cons]
      exact ih a
  simpa using key 0

/-- On perfect-square midlines the real quantile locator evaluates by
exact rational arithmetic. -/
theorem get_quantile_point_eq_Q (pts : List PtQ) (q : ℚ) (h : allPerfSq pts) :
    get_quantile_point pts q = get_quantile_pointQ pts q := by
  unfold get_quantile_point get_quantile_pointQ cumDist
  rw [diffDists_eq_cast pts h, cumsumL_map_cast, getLastD_map_cast]
  have hmaps : ((cumsumL (diffDistsQ pts)).map (fun (x : ℚ) => (x : ℝ))).map
      (fun x => |x - ((cumsumL (diffDistsQ pts)).getLastD 0 : ℚ) * (q : ℝ)|)
      = ((cumsumL (diffDistsQ pts)).map
          (fun x => |x - (cumsumL (diffDistsQ pts)).getLastD 0 * q|)).map
        (fun (x : ℚ) => (x : ℝ)) := by
    rw [List.map_map, List.map_map]
    apply List.map_congr_left
    intro x _
    show |(x : ℝ) - ((cumsumL (diffDistsQ pts)).getLastD 0 : ℚ) * (q : ℝ)|
        = ((|x - (cumsumL (diffDistsQ pts)).getLastD 0 * q| : ℚ) : ℝ)
    push_cast
    ring_nf
  rw [hmaps]
  apply idxMinFirst_map_mono
  intro x _ y _ hxy
  exact_mod_cast hxy

theorem mem_insertSorted (x y : ℕ) (l : List ℕ) :
    y ∈ insertSorted x l ↔ y = x ∨ y ∈ l := by
  induction l with
  | nil => simp [insertSorted]
  | cons a t ih =>
    unfold insertSorted
    by_cases h1 : x < a
    · rw [if_pos h1]; simp
    · rw [if_neg h1]
      by_cases h2 : x = a
      · rw [if_pos h2]
        subst h2
        simp only [List.mem_cons]
        tauto
      · rw [if_neg h2]
        simp only [List.mem_cons, ih]
        tauto

theorem mem_uniqueSorted (y : ℕ) (l : List ℕ) :
    y ∈ uniqueSorted l ↔ y ∈ l := by
  induction l with
  | nil => simp [uniqueSorted]
  | cons a t ih =>
    show y ∈ insertSorted a (uniqueSorted t) ↔ _
    rw [mem_insertSorted]
    simp only [List.mem_cons, ih]

/-- Pixel reads through a value-map whose function fixes 0 (out-of-range
reads return the default 0 on both sides). -/
theorem getPix_mapmap (g : ℕ → ℕ) (hg : g 0 = 0) (m : MaskL) (y x : ℕ) :
    getPix (m.map (fun row => row.map g)) y x = g (getPix m y x) := by
  unfold getPix
  rcases lt_or_le y m.length with hy | hy
  · have hy' : y < (m.map (fun row => row.map g)).length := by simpa using hy
    rw [List.getD_eq_getElem _ _ hy', List.getElem_map, List.getD_eq_getElem _ _ hy]
    rcases lt_or_le x (m[y].length) with hx | hx
    · have hx' : x < (m[y].map g).length := by simpa using hx
      rw [List.getD_eq_getElem _ _ hx', List.getElem_map, List.getD_eq_getElem _ _ hx]
    · rw [List.getD_eq_default _ _ (by simpa using hx), List.getD_eq_default _ _ hx, hg]
  · rw [List.getD_eq_default (m.map (fun row => row.map g)) [] (by simpa using hy),
      List.getD_eq_default m [] hy]
    simp only [List.getD_nil, hg]

theorem getPix_zeroOutLabel (lab : ℕ) (m : MaskL) (y x : ℕ) :
    getPix (zeroOutLabel lab m) y x
      = if getPix m y x = lab then 0 else getPix m y x := by
  unfold zeroOutLabel
  rw [getPix_mapmap (fun v => if v = lab then 0 else v) (by by_cases h : (0 : ℕ) = lab <;> simp [h]) m y x]

/-- Value of the anchor read `temp[anchor[1], anchor[0]]` under the loop
invariant. -/
theorem select_anchor_read (mask cur : MaskL) (anchor : Pt) (K : ℕ → Prop)
    [DecidablePred K]
    (hK : ∀ y x, getPix cur y x
      = if K (getPix mask y x) then getPix mask y x else 0) :
    getPixZ cur anchor.2 anchor.1
      = if K (getPixZ mask anchor.2 anchor.1)
        then getPixZ mask anchor.2 anchor.1 else 0 := by
  unfold getPixZ
  by_cases hb : 0 ≤ anchor.2 ∧ 0 ≤ anchor.1
  · simp only [if_pos hb]
    exact hK _ _
  · simp only [if_neg hb]
    rw [ite_self]

/-- Invariant-based description of the `select_mask` loop.  `K` is the
set of label values not yet zeroed; the anchor pixel's own label is
never zeroed, so the anchor read inside the loop always sees the
original anchor label. -/
theorem select_fold_char (mask : MaskL) (anchor : Pt) :
    ∀ (labels : List ℕ) (K : ℕ → Prop) [DecidablePred K] (cur : MaskL),
      (∀ y x, getPix cur y x
        = if K (getPix mask y x) then getPix mask y x else 0) →
      (getPixZ mask anchor.2 anchor.1 ≠ 0 → K (getPixZ mask anchor.2 anchor.1)) →
      ∀ y x, getPix (labels.foldl (selectStep anchor) cur) y x
        = if K (getPix mask y x)
            ∧ (getPix mask y x = getPixZ mask anchor.2 anchor.1
                ∨ getPix mask y x ∉ labels)
          then getPix mask y x else 0 := by
  intro labels
  induction labels with
  | nil =>
    intro K hdec cur hK _ y x
    rw [List.foldl_nil]
    have hiff : (K (getPix mask y x)
        ∧ (getPix mask y x = getPixZ mask anchor.2 anchor.1
            ∨ getPix mask y x ∉ ([] : List ℕ)))
        ↔ K (getPix mask y x) := by
      simp
    rw [if_congr hiff rfl rfl]
    exact hK y x
  | cons lab rest ih =>
    intro K hdec cur hK hKa y x
    rw [List.foldl_cons]
    by_cases h0 : lab = 0
    · subst h0
      have hstep : selectStep anchor cur 0 = cur := by
        unfold selectStep; rw [if_pos rfl]
      rw [hstep, ih K cur hK hKa y x]
      by_cases hv0 : getPix mask y x = 0
      · rw [hv0, ite_self, ite_self]
      · have hiff : (K (getPix mask y x)
            ∧ (getPix mask y x = getPixZ mask anchor.2 anchor.1
                ∨ getPix mask y x ∉ rest))
            ↔ (K (getPix mask y x)
            ∧ (getPix mask y x = getPixZ mask anchor.2 anchor.1
                ∨ getPix mask y x ∉ 0 :: rest)) := by
          simp only [List.mem_cons, not_or]
          constructor
          · rintro ⟨hKv, h⟩
            rcases h with h | h
            · exact ⟨hKv, Or.inl h⟩
            · exact ⟨hKv, Or.inr ⟨hv0, h⟩⟩
          · rintro ⟨hKv, h⟩
            rcases h with h | ⟨_, h2⟩
            · exact ⟨hKv, Or.inl h⟩
            · exact ⟨hKv, Or.inr h2⟩
        rw [if_congr hiff rfl rfl]
    · by_cases hal : getPixZ mask anchor.2 anchor.1 = lab
      · -- the anchor's own label: the loop keeps it
        have hKal : K (getPixZ mask anchor.2 anchor.1) :=
          hKa (by rw [hal]; exact h0)
        have hread : getPixZ cur anchor.2 anchor.1 = lab := by
          rw [select_anchor_read mask cur anchor K hK, if_pos hKal, hal]
        have hstep : selectStep anchor cur lab = cur := by
          unfold selectStep
          rw [if_neg h0, if_neg (not_not_intro hread)]
        rw [hstep, ih K cur hK hKa y x]
        by_cases hva : getPix mask y x = getPixZ mask anchor.2 anchor.1
        · have hiff : (K (getPix mask y x)
              ∧ (getPix mask y x = getPixZ mask anchor.2 anchor.1
                  ∨ getPix mask y x ∉ rest))
              ↔ (K (getPix mask y x)
              ∧ (getPix mask y x = getPixZ mask anchor.2 anchor.1
                  ∨ getPix mask y x ∉ lab :: rest)) := by
            constructor
            · rintro ⟨hKv, _⟩; exact ⟨hKv, Or.inl hva⟩
            · rintro ⟨hKv, _⟩; exact ⟨hKv, Or.inl hva⟩
          rw [if_congr hiff rfl rfl]
        · have hvl : getPix mask y x ≠ lab := by
            rw [← hal]; exact hva
          have hiff : (K (getPix mask y x)
              ∧ (getPix mask y x = getPixZ mask anchor.2 anchor.1
                  ∨ getPix mask y x ∉ rest))
              ↔ (K (getPix mask y x)
              ∧ (getPix mask y x = getPixZ mask anchor.2 anchor.1
                  ∨ getPix mask y x ∉ lab :: rest)) := by
            simp only [List.mem_cons, not_or]
            constructor
            · rintro ⟨hKv, h⟩
              rcases h with h | h
              · exact absurd h hva
              · exact ⟨hKv, Or.inr ⟨hvl, h⟩⟩
            · rintro ⟨hKv, h⟩
              rcases h with h | ⟨_, h2⟩
              · exact absurd h hva
              · exact ⟨hKv, Or.inr h2⟩
          rw [if_congr hiff rfl rfl]
      · -- a label different from the anchor's: zeroed out
        have hread : getPixZ cur anchor.2 anchor.1 ≠ lab := by
          rw [select_anchor_read mask cur anchor K hK]
          by_cases hKa' : K (getPixZ mask anchor.2 anchor.1)
          · rw [if_pos hKa']; exact hal
          · rw [if_neg hKa']; exact fun h => h0 h.symm
        have hstep : selectStep anchor cur lab = zeroOutLabel lab cur := by
          unfold selectStep
          rw [if_neg h0, if_pos hread]
        rw [hstep]
        have hK' : ∀ y' x', getPix (zeroOutLabel lab cur) y' x'
            = if (fun w => K w ∧ w ≠ lab) (getPix mask y' x')
              then getPix mask y' x' else 0 := by
          intro y' x'
          rw [getPix_zeroOutLabel, hK y' x']
          by_cases hKv : K (getPix mask y' x')
          · rw [if_pos hKv]
            by_cases hvl : getPix mask y' x' = lab
            · rw [if_pos hvl, if_neg (fun hc => hc.2 hvl)]
            · rw [if_neg hvl, if_pos ⟨hKv, hvl⟩]
          · rw [if_neg hKv, if_neg (fun hc => h0 hc.symm),
              if_neg (fun hc => hKv hc.1)]
        have hKa' : getPixZ mask anchor.2 anchor.1 ≠ 0 →
            (fun w => K w ∧ w ≠ lab) (getPixZ mask anchor.2 anchor.1) :=
          fun hne => ⟨hKa hne, hal⟩
        rw [ih (fun w => K w ∧ w ≠ lab) (zeroOutLabel lab cur) hK' hKa' y x]
        have hiff : ((fun w => K w ∧ w ≠ lab) (getPix mask y x)
            ∧ (getPix mask y x = getPixZ mask anchor.2 anchor.1
                ∨ getPix mask y x ∉ rest))
            ↔ (K (getPix mask y x)
            ∧ (getPix mask y x = getPixZ mask anchor.2 anchor.1
                ∨ getPix mask y x ∉ lab :: rest)) := by
          simp only [List.mem_cons, not_or]
          constructor
          · rintro ⟨⟨hKv, hvl⟩, h⟩
            rcases h with h | h
            · exact ⟨hKv, Or.inl h⟩
            · exact ⟨hKv, Or.inr ⟨hvl, h⟩⟩
          · rintro ⟨hKv, h⟩
            rcases h with h | ⟨h1, h2⟩
            · exact ⟨⟨hKv, fun hc => hal (h ▸ hc)⟩, Or.inl h⟩
            · exact ⟨⟨hKv, h1⟩, Or.inr h2⟩
        rw [if_congr hiff rfl rfl]

/-- Pixel-level description of `select_mask`: a pixel survives exactly
when its label equals the anchor pixel's label (and then it is
returned unchanged); everything else becomes 0. -/
theorem select_mask_pixel (mask : MaskL) (anchor : Pt) (y x : ℕ) :
    getPix (select_mask mask anchor) y x
      = if getPix mask y x = getPixZ mask anchor.2 anchor.1
        then getPix mask y x else 0 := by
  unfold select_mask
  rw [select_fold_char mask anchor (uniqueSorted mask.flatten) (fun _ => True) mask
    (fun y' x' => by rw [if_pos trivial]) (fun _ => trivial) y x]
  by_cases hva : getPix mask y x = getPixZ mask anchor.2 anchor.1
  · rw [if_pos ⟨trivial, Or.inl hva⟩, if_pos hva]
  · rw [if_neg hva]
    by_cases hv0 : getPix mask y x = 0
    · rw [hv0, ite_self]
    · have hmem : getPix mask y x ∈ uniqueSorted mask.flatten := by
        rw [mem_uniqueSorted]
        apply List.mem_flatten.mpr
        have hy : y < mask.length := by
          by_contra hy
          push_neg at hy
          unfold getPix at hv0
          rw [List.getD_eq_default mask [] hy] at hv0
          simp at hv0
        have hx : x < (mask.getD y []).length := by
          by_contra hx
          push_neg at hx
          unfold getPix at hv0
          rw [List.getD_eq_default _ 0 hx] at hv0
          exact hv0 rfl
        refine ⟨mask.getD y [], ?_, ?_⟩
        · rw [List.getD_eq_getElem mask [] hy]
          exact List.getElem_mem hy
        · unfold getPix
          rw [List.getD_eq_getElem _ 0 hx]
          exact List.getElem_mem hx
      rw [if_neg (fun hc => by
        rcases hc.2 with h | h
        · exact hva h
        · exact h hmem)]

theorem getPix_gridMap (m : MaskL) (f : ℕ → ℕ → ℕ) (y x : ℕ) :
    getPix (gridMap m f) y x
      = if y < m.length ∧ x < (m.getD y []).length then f y x else 0 := by
  unfold gridMap getPix
  by_cases hy : y < m.length
  · have hy' : y < ((List.range m.length).map (fun (y : ℕ) =>
        (List.range (m.getD y []).length).map (f y))).length := by simpa using hy
    rw [List.getD_eq_getElem _ _ hy', List.getElem_map, List.getElem_range]
    by_cases hx : x < (m.getD y []).length
    · have hx' : x < ((List.range (m.getD y []).length).map (f y)).length := by
        simpa using hx
      rw [List.getD_eq_getElem _ _ hx', List.getElem_map, List.getElem_range]
      rw [if_pos ⟨hy, hx⟩]
    · rw [List.getD_eq_default _ _ (by simpa using not_lt.mp hx)]
      rw [if_neg (fun hc => hx hc.2)]
  · rw [List.getD_eq_default _ [] (by simpa using not_lt.mp hy)]
    rw [if_neg (fun hc => hy hc.1)]
    simp

theorem gridMap_shape (m : MaskL) (f : ℕ → ℕ → ℕ) :
    (gridMap m f).length = m.length
      ∧ ∀ y, ((gridMap m f).getD y []).length = (m.getD y []).length := by
  constructor
  · simp [gridMap]
  · intro y
    unfold gridMap
    by_cases hy : y < m.length
    · have hy' : y < ((List.range m.length).map (fun (y : ℕ) =>
          (List.range (m.getD y []).length).map (f y))).length := by simpa using hy
      rw [List.getD_eq_getElem _ _ hy', List.getElem_map, List.getElem_range]
      simp
    · rw [List.getD_eq_default _ [] (by simpa using not_lt.mp hy),
        List.getD_eq_default _ [] (by simpa using not_lt.mp hy)]

theorem neighborMin_ne_zero (g : MaskL) (y x : ℕ) (h : getPix g y x ≠ 0) :
    neighborMin g y x ≠ 0 := by
  unfold neighborMin
  have : ∀ (l : List (ℤ × ℤ)) (acc : ℕ), acc ≠ 0 →
      l.foldl (fun acc d =>
        let v := getPixZ g ((y : ℤ) + d.1) ((x : ℤ) + d.2)
        if v ≠ 0 ∧ v < acc then v else acc) acc ≠ 0 := by
    intro l
    induction l with
    | nil => intro acc hacc; exact hacc
    | cons d t ih =>
      intro acc hacc
      rw [List.foldl_cons]
      by_cases hc : getPixZ g ((y : ℤ) + d.1) ((x : ℤ) + d.2) ≠ 0
          ∧ getPixZ g ((y : ℤ) + d.1) ((x : ℤ) + d.2) < acc
      · exact ih _ (by simp only [if_pos hc]; exact hc.1)
      · exact ih _ (by simp only [if_neg hc]; exact hacc)
  exact this neighborOffsets (getPix g y x) h

theorem labelStep_support (g : MaskL) (y x : ℕ) :
    getPix (labelStep g) y x = 0 ↔ getPix g y x = 0 := by
  unfold labelStep
  rw [getPix_gridMap]
  by_cases hb : y < g.length ∧ x < (g.getD y []).length
  · rw [if_pos hb]
    by_cases h0 : getPix g y x = 0
    · simp [h0]
    · rw [if_neg h0]
      exact ⟨fun hc => absurd hc (neighborMin_ne_zero g y x h0), fun hc => absurd hc h0⟩
  · rw [if_neg hb]
    constructor
    · intro _
      unfold getPix
      rcases not_and_or.mp hb with hy | hx
      · rw [List.getD_eq_default g [] (not_lt.mp hy)]; simp
      · rw [List.getD_eq_default _ 0 (not_lt.mp hx)]
    · intro _; rfl

theorem labelInit_support (m : MaskL) (y x : ℕ) :
    getPix (labelInit m) y x = 0 ↔ getPix m y x = 0 := by
  unfold labelInit
  rw [getPix_gridMap]
  by_cases hb : y < m.length ∧ x < (m.getD y []).length
  · rw [if_pos hb]
    by_cases h0 : getPix m y x = 0
    · simp [h0]
    · simp [h0]
  · rw [if_neg hb]
    constructor
    · intro _
      unfold getPix
      rcases not_and_or.mp hb with hy | hx
      · rw [List.getD_eq_default m [] (not_lt.mp hy)]; simp
      · rw [List.getD_eq_default _ 0 (not_lt.mp hx)]
    · intro _; rfl

/-- The labeler's support equals the input's support: background stays
0, foreground gets a positive label. -/
theorem labelC_support (m : MaskL) (y x : ℕ) :
    getPix (labelC m) y x = 0 ↔ getPix m y x = 0 := by
  unfold labelC
  have : ∀ (n : ℕ) (g : MaskL),
      (∀ y' x', getPix g y' x' = 0 ↔ getPix m y' x' = 0) →
      ∀ y' x', getPix (labelStep^[n] g) y' x' = 0 ↔ getPix m y' x' = 0 := by
    intro n
    induction n with
    | zero => intro g hg; exact hg
    | succ k ih =>
      intro g hg y' x'
      rw [Function.iterate_succ_apply]
      exact ih (labelStep g)
        (fun y'' x'' => (labelStep_support g y'' x'').trans (hg y'' x'')) y' x'
  exact this _ (labelInit m) (labelInit_support m) y x

theorem readS_append (st : Store) (x : MaskL) (j : ℕ) (hj : j < st.length) :
    readS (st ++ [x]) j = readS st j := by
  unfold readS List.getD
  rw [List.get?_eq_getElem?, List.get?_eq_getElem?, List.getElem?_append_left hj]

theorem readS_set_ne (st : Store) (i j : ℕ) (x : MaskL) (h : j ≠ i) :
    readS (st.set i x) j = readS st j := by
  unfold readS List.getD
  rw [List.get?_eq_getElem?, List.get?_eq_getElem?,
    List.getElem?_set_ne (fun hc => h hc.symm)]

theorem divide_maskS_frame (st : Store) (maskRef : ℕ) (path : List PtQ)
    (mid space : ℕ) (mult : ℚ) (j : ℕ) (hj : j < st.length) :
    readS ((divide_maskS st maskRef path mid space mult).1) j = readS st j := by
  unfold divide_maskS
  rw [readS_set_ne _ _ _ _ (Nat.ne_of_lt hj), readS_append st _ j hj]

theorem divide_maskS_length (st : Store) (maskRef : ℕ) (path : List PtQ)
    (mid space : ℕ) (mult : ℚ) :
    (divide_maskS st maskRef path mid space mult).1.length = st.length + 1 := by
  unfold divide_maskS
  rw [List.length_set, List.length_append]
  rfl

theorem selectStepS_frame (anchor : Pt) (tempRef : ℕ) (st : Store) (lab : ℕ)
    (j : ℕ) (hj : j ≠ tempRef) :
    readS (selectStepS anchor tempRef st lab) j = readS st j := by
  unfold selectStepS
  split
  · rfl
  · split
    · rw [readS_set_ne _ _ _ _ hj]
    · rfl

theorem selectStepS_length (anchor : Pt) (tempRef : ℕ) (st : Store) (lab : ℕ) :
    (selectStepS anchor tempRef st lab).length = st.length := by
  unfold selectStepS
  split
  · rfl
  · split
    · rw [List.length_set]
    · rfl

theorem selectFoldS_frame (anchor : Pt) (tempRef : ℕ) (labels : List ℕ)
    (st : Store) (j : ℕ) (hj : j ≠ tempRef) :
    readS (labels.foldl (selectStepS anchor tempRef) st) j = readS st j := by
  induction labels generalizing st with
  | nil => rfl
  | cons lab rest ih =>
    rw [List.foldl_cons, ih (selectStepS anchor tempRef st lab),
      selectStepS_frame anchor tempRef st lab j hj]

theorem selectFoldS_length (anchor : Pt) (tempRef : ℕ) (labels : List ℕ)
    (st : Store) :
    (labels.foldl (selectStepS anchor tempRef) st).length = st.length := by
  induction labels generalizing st with
  | nil => rfl
  | cons lab rest ih =>
    rw [List.foldl_cons, ih (selectStepS anchor tempRef st lab),
      selectStepS_length anchor tempRef st lab]

theorem select_maskS_frame (st : Store) (maskRef : ℕ) (anchor : Pt) (j : ℕ)
    (hj : j < st.length) :
    readS ((select_maskS st maskRef anchor).1) j = readS st j := by
  unfold select_maskS
  rw [selectFoldS_frame _ _ _ _ j (Nat.ne_of_lt hj), readS_append st _ j hj]

theorem select_maskS_length (st : Store) (maskRef : ℕ) (anchor : Pt) :
    (select_maskS st maskRef anchor).1.length = st.length + 1 := by
  unfold select_maskS
  rw [selectFoldS_length, List.length_append]
  rfl

theorem get_worm_masksS_frame (findC : MaskL → List (List Pt))
    (area : List Pt → ℚ) (fit : List Pt → ℕ → List PtQ)
    (st : Store) (maskRef antRef : ℕ) (q : ℚ) (j : ℕ) (hj : j < st.length) :
    readS ((get_worm_masksS findC area fit st maskRef antRef q).1) j = readS st j := by
  unfold get_worm_masksS
  dsimp only
  set border := get_border_pathT (findC (readS st maskRef)) area
  set ep := get_endpoint_pairR border 50
  set ht := check_head border ep.1 ep.2 (readS st antRef)
  set spline := get_spline fit border ht.1 ht.2
  set mid := get_quantile_point spline q
  set r1 := divide_maskS st maskRef spline mid 50 6 with hr1
  have h1 : readS r1.1 j = readS st j := divide_maskS_frame st maskRef spline mid 50 6 j hj
  have hl1 : r1.1.length = st.length + 1 := divide_maskS_length st maskRef spline mid 50 6
  set st2 := r1.1 ++ [labelC (binarize (readS r1.1 r1.2))] with hst2
  have h2 : readS st2 j = readS r1.1 j :=
    readS_append r1.1 _ j (by rw [hl1]; exact Nat.lt_succ_of_lt hj)
  have hl2 : st2.length = st.length + 2 := by
    rw [hst2, List.length_append, hl1]
    rfl
  set r2 := select_maskS st2 (r1.1).length (border.getD ht.1 (0, 0)) with hr2
  have h3 : readS r2.1 j = readS st2 j :=
    select_maskS_frame st2 _ _ j (by rw [hl2]; omega)
  have hl3 : r2.1.length = st.length + 3 := by
    rw [hr2, select_maskS_length, hl2]
  have h4 : readS ((select_maskS r2.1 (r1.1).length (border.getD ht.2 (0, 0))).1) j
      = readS r2.1 j :=
    select_maskS_frame r2.1 _ _ j (by rw [hl3]; omega)
  rw [h4, h3, h2, h1]

theorem getPix_mapmap_inb (g : ℕ → ℕ) (m : MaskL) (y x : ℕ)
    (hy : y < m.length) (hx : x < (m.getD y []).length) :
    getPix (m.map (fun row => row.map g)) y x = g (getPix m y x) := by
  unfold getPix
  have hy' : y < (m.map (fun row => row.map g)).length := by simpa using hy
  rw [List.getD_eq_getElem _ _ hy', List.getElem_map, List.getD_eq_getElem _ _ hy]
  have hx' : x < (m[y].map g).length := by
    rw [List.getD_eq_getElem _ _ hy] at hx
    simpa using hx
  have hx2 : x < m[y].length := by simpa using hx'
  rw [List.getD_eq_getElem _ _ hx', List.getElem_map, List.getD_eq_getElem _ _ hx2]

theorem getPixZ_complement (m : MaskL) (p : Pt) (hb : inBoundsPt m p) :
    getPixZ (complementC m) p.2 p.1 = if getPixZ m p.2 p.1 = 0 then 1 else 0 := by
  obtain ⟨h1, h2, h3, h4⟩ := hb
  unfold getPixZ
  have hinner : (if 0 ≤ p.2 ∧ 0 ≤ p.1 then getPix m p.2.toNat p.1.toNat else 0)
      = getPix m p.2.toNat p.1.toNat := if_pos ⟨h2, h1⟩
  rw [hinner, if_pos ⟨h2, h1⟩]
  unfold complementC
  rw [getPix_mapmap_inb (fun v => if v = 0 then 1 else 0) m _ _ h3 h4]

theorem getD_reverse_zero (l : List PtQ) (hne : l ≠ []) (d : PtQ) :
    l.reverse.getD 0 d = l.getD (l.length - 1) d := by
  have hlen : 0 < l.length := List.length_pos.mpr hne
  have h0 : 0 < l.reverse.length := by simpa using hlen
  rw [List.getD_eq_getElem _ _ h0, List.getD_eq_getElem _ _ (by omega),
    List.getElem_reverse]
  congr 1

theorem getD_reverse_last (l : List PtQ) (hne : l ≠ []) (d : PtQ) :
    l.reverse.getD (l.reverse.length - 1) d = l.getD 0 d := by
  have hlen : 0 < l.length := List.length_pos.mpr hne
  have h0 : l.reverse.length - 1 < l.reverse.length := by
    simp only [List.length_reverse]; omega
  rw [List.getD_eq_getElem _ _ h0, List.getD_eq_getElem _ _ hlen,
    List.getElem_reverse]
  congr 1
  simp only [List.length_reverse]
  omega

theorem cumsumL_length [AddCommMonoid α] (l : List α) :
    (cumsumL l).length = l.length := by
  induction l with
  | nil => rfl
  | cons a t ih => simp [cumsumL, ih]

theorem diffDists_length (pts : List PtQ) :
    (diffDists pts).length = pts.length - 1 := by
  unfold diffDists
  rw [List.length_map, List.length_zip, List.length_tail]
  omega

theorem getLastD_mem (l : List ℝ) (hne : l ≠ []) (d : ℝ) : l.getLastD d ∈ l := by
  induction l generalizing d with
  | nil => exact absurd rfl hne
  | cons a t ih =>
    rw [List.getLastD_cons]
    cases t with
    | nil => simp
    | cons b t' => exact List.mem_cons_of_mem a (ih (by simp) a)

/-!
Claim theorems.
-/

/-- C3: the Head/Tail Resolver `check_head` returns
`(secondary, primary)` when the primary endpoint's pixel is background
in the anterior mask and `(primary, secondary)` otherwise; whenever
exactly one of the two endpoints lies in the anterior mask, the
returned head is the foreground endpoint and the returned tail the
background one. -/
theorem claim_C3_check_head (path : List Pt) (i j : ℕ) (ant : MaskL) :
    (antAt path i ant = 0 → check_head path i j ant = (j, i)) ∧
    (antAt path i ant ≠ 0 → check_head path i j ant = (i, j)) ∧
    ((antAt path i ant ≠ 0 ↔ antAt path j ant = 0) →
      antAt path (check_head path i j ant).1 ant ≠ 0 ∧
      antAt path (check_head path i j ant).2 ant = 0) := by
  have hdef : check_head path i j ant
      = if antAt path i ant = 0 then (j, i) else (i, j) := rfl
  by_cases h : antAt path i ant = 0
  · rw [hdef, if_pos h]
    exact ⟨fun _ => rfl, fun hc => absurd h hc,
      fun hiff => ⟨fun hc => (hiff.mpr hc) h, h⟩⟩
  · rw [hdef, if_neg h]
    exact ⟨fun hc => absurd hc h, fun _ => rfl, fun hiff => ⟨h, hiff.mp h⟩⟩

/-- Witness for C3 at a concrete contour and anterior mask. -/
theorem claim_C3_check_head_witness :
    antAt [((0 : ℤ), (0 : ℤ)), (1, 0)] 0 [[0, 1]] = 0 ∧
    check_head [((0 : ℤ), (0 : ℤ)), (1, 0)] 0 1 [[0, 1]] = (1, 0) :=
  ⟨by decide, (claim_C3_check_head [((0 : ℤ), (0 : ℤ)), (1, 0)] 0 1 [[0, 1]]).1 (by decide)⟩

/-- C6: complementing the anterior mask pointwise (non-zero pixels
become 0, zero pixels become non-zero) swaps the head/tail pair
returned by `check_head`, provided the primary endpoint's pixel lies
inside the mask grid (the only pixel the resolver reads). -/
theorem claim_C6_complement_swaps (path : List Pt) (i j : ℕ) (ant : MaskL)
    (hb : inBoundsPt ant (path.getD i (0, 0))) :
    check_head path i j (complementC ant)
      = Prod.swap (check_head path i j ant) := by
  have hc := getPixZ_complement ant (path.getD i (0, 0)) hb
  have hdefc : check_head path i j (complementC ant)
      = if getPixZ (complementC ant) (path.getD i (0, 0)).2 (path.getD i (0, 0)).1 = 0
        then (j, i) else (i, j) := rfl
  have hdef : check_head path i j ant
      = if getPixZ ant (path.getD i (0, 0)).2 (path.getD i (0, 0)).1 = 0
        then (j, i) else (i, j) := rfl
  by_cases h : getPixZ ant (path.getD i (0, 0)).2 (path.getD i (0, 0)).1 = 0
  · rw [hdefc, hc, if_pos h, hdef, if_pos h]
    rw [if_neg one_ne_zero]
    rfl
  · rw [hdefc, hc, if_neg h, hdef, if_neg h]
    rw [if_pos rfl]
    rfl

/-- Witness for C6 at a concrete contour and anterior mask. -/
theorem claim_C6_complement_swaps_witness :
    inBoundsPt [[5, 0]] (([((0 : ℤ), (0 : ℤ)), (1, 0)].getD 0 (0, 0))) ∧
    check_head [((0 : ℤ), (0 : ℤ)), (1, 0)] 0 1 (complementC [[5, 0]])
      = Prod.swap (check_head [((0 : ℤ), (0 : ℤ)), (1, 0)] 0 1 [[5, 0]]) :=
  ⟨by decide, claim_C6_complement_swaps [((0 : ℤ), (0 : ℤ)), (1, 0)] 0 1 [[5, 0]] (by decide)⟩

/-- C10: every output pixel of the Region Selector is either 0 or the
corresponding input pixel; a non-zero pixel survives exactly when its
label equals the label at the anchor; if the anchor pixel is background
the output is all zeros. -/
theorem claim_C10_select_mask (mask : MaskL) (anchor : Pt)
    (_hb : inBoundsPt mask anchor) :
    (∀ y x, getPix (select_mask mask anchor) y x = 0
        ∨ getPix (select_mask mask anchor) y x = getPix mask y x) ∧
    (∀ y x, getPix (select_mask mask anchor) y x ≠ 0
        ↔ getPix mask y x ≠ 0
          ∧ getPix mask y x = getPixZ mask anchor.2 anchor.1) ∧
    (getPixZ mask anchor.2 anchor.1 = 0 →
      ∀ y x, getPix (select_mask mask anchor) y x = 0) := by
  refine ⟨?_, ?_, ?_⟩
  · intro y x
    rw [select_mask_pixel]
    by_cases h : getPix mask y x = getPixZ mask anchor.2 anchor.1
    · rw [if_pos h]; exact Or.inr rfl
    · rw [if_neg h]; exact Or.inl rfl
  · intro y x
    rw [select_mask_pixel]
    by_cases h : getPix mask y x = getPixZ mask anchor.2 anchor.1
    · rw [if_pos h]
      exact ⟨fun hne => ⟨hne, h⟩, fun hc => hc.1⟩
    · rw [if_neg h]
      exact ⟨fun hc => absurd rfl hc, fun hc => absurd hc.2 h⟩
  · intro ha y x
    rw [select_mask_pixel]
    by_cases h : getPix mask y x = getPixZ mask anchor.2 anchor.1
    · rw [if_pos h, h, ha]
    · rw [if_neg h]

/-- Witness for C10 at a concrete labeled mask and anchor. -/
theorem claim_C10_select_mask_witness :
    inBoundsPt [[1, 2]] (((0 : ℤ), (0 : ℤ))) ∧
    ((∀ y x, getPix (select_mask [[1, 2]] ((0 : ℤ), (0 : ℤ))) y x = 0
        ∨ getPix (select_mask [[1, 2]] ((0 : ℤ), (0 : ℤ))) y x = getPix [[1, 2]] y x) ∧
    (∀ y x, getPix (select_mask [[1, 2]] ((0 : ℤ), (0 : ℤ))) y x ≠ 0
        ↔ getPix [[1, 2]] y x ≠ 0
          ∧ getPix [[1, 2]] y x = getPixZ [[1, 2]] 0 0) ∧
    (getPixZ [[1, 2]] 0 0 = 0 →
      ∀ y x, getPix (select_mask [[1, 2]] ((0 : ℤ), (0 : ℤ))) y x = 0)) :=
  ⟨by decide, claim_C10_select_mask [[1, 2]] ((0 : ℤ), (0 : ℤ)) (by decide)⟩

/-- C8 (code bug): on a mask with no foreground pixels the contour
extractor returns no contours, and `get_border_path`'s
`max(contours[0], key=cv2.contourArea)` raises Python's untyped
`ValueError` (`max() arg is an empty sequence`) instead of the typed
`EmptyInputError` the spec prescribes. -/
theorem claim_C8_border_crash (findC : MaskL → List (List Pt))
    (area : List Pt → ℚ) (mask : MaskL) (h : findC mask = []) :
    get_border_pathE (findC mask) area = Except.error PyError.valueError ∧
    get_border_pathE (findC mask) area ≠ Except.error PyError.emptyInputError := by
  rw [h]
  exact ⟨rfl, fun hc => by simp [get_border_pathE, pyMaxBy] at hc⟩

/-- Witness for C8: the all-background mask. -/
theorem claim_C8_border_crash_witness :
    ((fun (_ : MaskL) => ([] : List (List Pt))) [[0, 0], [0, 0]] = []) ∧
    (get_border_pathE ((fun (_ : MaskL) => ([] : List (List Pt))) [[0, 0], [0, 0]])
        (fun _ => 0) = Except.error PyError.valueError ∧
      get_border_pathE ((fun (_ : MaskL) => ([] : List (List Pt))) [[0, 0], [0, 0]])
        (fun _ => 0) ≠ Except.error PyError.emptyInputError) :=
  ⟨rfl, claim_C8_border_crash (fun _ => []) (fun _ => 0) [[0, 0], [0, 0]] rfl⟩

/-- C9 (code bug): on the contour `[(0,0),(1,0),(2,0),(1,0)]` (the kind
of doubled-back path a one-pixel-wide spur produces) with `space = 2`,
the backward vector at index 1 is the zero vector, so the denominator
`norm(vector_forward) * norm(vector_backward)` of the angle computation
is 0: numpy divides by zero and silently produces NaN; no guard exists
in the source and no `GeometryError` is raised (the source defines no
exception type at all). -/
theorem claim_C9_zero_denominator :
    (denomSq [((0 : ℤ), (0 : ℤ)), (1, 0), (2, 0), (1, 0)] 2).getD 1 0 = 0 ∧
    ¬ noZeroVec [((0 : ℤ), (0 : ℤ)), (1, 0), (2, 0), (1, 0)] 2 := by
  constructor
  · decide
  · decide

/-- C7: none of `divide_mask`, `select_mask`, `get_worm_masks` mutates
the caller's arrays: in the store semantics, after each call the
contents at the input references are unchanged (all writes go to
freshly allocated copies). -/
theorem claim_C7_no_input_mutation (findC : MaskL → List (List Pt))
    (area : List Pt → ℚ) (fit : List Pt → ℕ → List PtQ)
    (st : Store) (maskRef antRef : ℕ) (path : List PtQ)
    (mid space : ℕ) (mult : ℚ) (anchor : Pt) (q : ℚ)
    (hm : maskRef < st.length) (ha : antRef < st.length) :
    readS ((divide_maskS st maskRef path mid space mult).1) maskRef
        = readS st maskRef ∧
    readS ((select_maskS st maskRef anchor).1) maskRef = readS st maskRef ∧
    readS ((get_worm_masksS findC area fit st maskRef antRef q).1) maskRef
        = readS st maskRef ∧
    readS ((get_worm_masksS findC area fit st maskRef antRef q).1) antRef
        = readS st antRef :=
  ⟨divide_maskS_frame st maskRef path mid space mult maskRef hm,
   select_maskS_frame st maskRef anchor maskRef hm,
   get_worm_masksS_frame findC area fit st maskRef antRef q maskRef hm,
   get_worm_masksS_frame findC area fit st maskRef antRef q antRef ha⟩

/-- Witness for C7 on a two-array store. -/
theorem claim_C7_no_input_mutation_witness :
    ((0 : ℕ) < ([[[1]], [[2]]] : Store).length
      ∧ (1 : ℕ) < ([[[1]], [[2]]] : Store).length) ∧
    (readS ((divide_maskS [[[1]], [[2]]] 0 [] 0 50 6).1) 0
        = readS [[[1]], [[2]]] 0 ∧
     readS ((select_maskS [[[1]], [[2]]] 0 ((0 : ℤ), (0 : ℤ))).1) 0
        = readS [[[1]], [[2]]] 0 ∧
     readS ((get_worm_masksS (fun _ => []) (fun _ => 0) (fun _ _ => [])
          [[[1]], [[2]]] 0 1 (13 / 100)).1) 0 = readS [[[1]], [[2]]] 0 ∧
     readS ((get_worm_masksS (fun _ => []) (fun _ => 0) (fun _ _ => [])
          [[[1]], [[2]]] 0 1 (13 / 100)).1) 1 = readS [[[1]], [[2]]] 1) :=
  ⟨⟨by decide, by decide⟩,
   claim_C7_no_input_mutation (fun _ => []) (fun _ => 0) (fun _ _ => [])
     [[[1]], [[2]]] 0 1 [] 0 50 6 ((0 : ℤ), (0 : ℤ)) (13 / 100)
     (by decide) (by decide)⟩

/-- C4: the Midline Builder orients its output so that the first
midline point is at Euclidean distance from the head anchor no larger
than the last midline point, for every curve-fit primitive and every
input producing a non-empty midline. -/
theorem claim_C4_spline_head_first (fit : List Pt → ℕ → List PtQ)
    (path : List Pt) (h t : ℕ) (hne : get_spline fit path h t ≠ []) :
    Real.sqrt ((sqDistQ ((get_spline fit path h t).getD 0 (0, 0))
        (ptQofZ (path.getD h (0, 0))) : ℚ) : ℝ)
      ≤ Real.sqrt ((sqDistQ
          ((get_spline fit path h t).getD ((get_spline fit path h t).length - 1) (0, 0))
          (ptQofZ (path.getD h (0, 0))) : ℚ) : ℝ) := by
  have hmain : sqDistQ ((get_spline fit path h t).getD 0 (0, 0))
        (ptQofZ (path.getD h (0, 0)))
      ≤ sqDistQ
        ((get_spline fit path h t).getD ((get_spline fit path h t).length - 1) (0, 0))
        (ptQofZ (path.getD h (0, 0))) := by
    unfold get_spline at hne ⊢
    dsimp only at hne ⊢
    set A := List.zipWith ptQavg
      (resample_path fit ((path.drop (min h t)).take (max h t - min h t)) 5000)
      (resample_path fit ((path.drop (max h t) ++ path.take (min h t)).reverse) 5000)
      with hA
    set anchor := ptQofZ (path.getD h (0, 0)) with hanchor
    by_cases hc : sqDistQ (A.getD (A.length - 1) (0, 0)) anchor
        < sqDistQ (A.getD 0 (0, 0)) anchor
    · rw [if_pos hc] at hne ⊢
      have hAne : A ≠ [] := by
        intro hA0
        rw [hA0] at hne
        exact hne rfl
      rw [getD_reverse_zero A hAne, getD_reverse_last A hAne]
      exact le_of_lt hc
    · rw [if_neg hc] at hne ⊢
      exact le_of_not_lt hc
  exact Real.sqrt_le_sqrt (by exact_mod_cast hmain)

/-- Witness for C4 with a two-point curve-fit primitive. -/
theorem claim_C4_spline_head_first_witness :
    (get_spline (fun _ _ => [((0 : ℚ), (0 : ℚ)), (1, 0)]) [((0 : ℤ), (0 : ℤ))] 0 0 ≠ []) ∧
    Real.sqrt ((sqDistQ ((get_spline (fun _ _ => [((0 : ℚ), (0 : ℚ)), (1, 0)])
          [((0 : ℤ), (0 : ℤ))] 0 0).getD 0 (0, 0))
        (ptQofZ ([((0 : ℤ), (0 : ℤ))].getD 0 (0, 0))) : ℚ) : ℝ)
      ≤ Real.sqrt ((sqDistQ
          ((get_spline (fun _ _ => [((0 : ℚ), (0 : ℚ)), (1, 0)])
            [((0 : ℤ), (0 : ℤ))] 0 0).getD
            ((get_spline (fun _ _ => [((0 : ℚ), (0 : ℚ)), (1, 0)])
              [((0 : ℤ), (0 : ℤ))] 0 0).length - 1) (0, 0))
          (ptQofZ ([((0 : ℤ), (0 : ℤ))].getD 0 (0, 0))) : ℚ) : ℝ) :=
  ⟨by with_unfolding_all decide,
   claim_C4_spline_head_first (fun _ _ => [((0 : ℚ), (0 : ℚ)), (1, 0)])
     [((0 : ℤ), (0 : ℤ))] 0 0 (by with_unfolding_all decide)⟩

/-- C5: the Quantile Locator is monotone in the quantile: for a midline
with at least two points and quantile fractions `q1 < q2` in `[0, 1]`,
the cumulative arc-length at the returned index for `q1` is at most the
one for `q2`. -/
theorem claim_C5_quantile_monotone (pts : List PtQ) (q1 q2 : ℚ)
    (hlen : 2 ≤ pts.length) (_hq0 : 0 ≤ q1) (hq12 : q1 < q2) (_hq1 : q2 ≤ 1) :
    (cumDist pts).getD (get_quantile_point pts q1) 0
      ≤ (cumDist pts).getD (get_quantile_point pts q2) 0 := by
  have hne : cumDist pts ≠ [] := by
    intro hc
    have := congrArg List.length hc
    rw [show (cumDist pts).length = pts.length - 1 by
      unfold cumDist; rw [cumsumL_length, diffDists_length]] at this
    simp at this
    omega
  have hT : 0 ≤ (cumDist pts).getLastD 0 :=
    cumDist_nonneg pts _ (getLastD_mem (cumDist pts) hne 0)
  have ht : (cumDist pts).getLastD 0 * (q1 : ℝ)
      ≤ (cumDist pts).getLastD 0 * (q2 : ℝ) := by
    apply mul_le_mul_of_nonneg_left _ hT
    exact_mod_cast le_of_lt hq12
  unfold get_quantile_point
  exact argminAbs_mono (cumDist pts) _ _ (cumDist_sorted pts) hne ht

/-- Witness for C5 on a three-point collinear midline. -/
theorem claim_C5_quantile_monotone_witness :
    (2 ≤ ([((0 : ℚ), (0 : ℚ)), (1, 0), (2, 0)] : List PtQ).length
      ∧ (0 : ℚ) ≤ 0 ∧ (0 : ℚ) < 1 ∧ (1 : ℚ) ≤ 1) ∧
    (cumDist [((0 : ℚ), (0 : ℚ)), (1, 0), (2, 0)]).getD
        (get_quantile_point [((0 : ℚ), (0 : ℚ)), (1, 0), (2, 0)] 0) 0
      ≤ (cumDist [((0 : ℚ), (0 : ℚ)), (1, 0), (2, 0)]).getD
        (get_quantile_point [((0 : ℚ), (0 : ℚ)), (1, 0), (2, 0)] 1) 0 :=
  ⟨⟨by decide, by decide, by decide, by decide⟩,
   claim_C5_quantile_monotone [((0 : ℚ), (0 : ℚ)), (1, 0), (2, 0)] 0 1
     (by decide) (by decide) (by decide) (by decide)⟩

/-- Modular arithmetic helper: the forward offset of `(idx + j) % n`
from `idx` is `j`. -/
theorem offset_mod_cancel (n idx j : ℕ) (hidx : idx < n) (hj : j < n) :
    ((idx + j) % n + n - idx) % n = j := by
  rcases lt_or_le (idx + j) n with h | h
  · rw [Nat.mod_eq_of_lt h]
    have h1 : idx + j + n - idx = j + n := by omega
    rw [h1, Nat.add_mod_right, Nat.mod_eq_of_lt hj]
  · have h2 : (idx + j) % n = idx + j - n := by
      rw [Nat.mod_eq_sub_mod h, Nat.mod_eq_of_lt (by omega)]
    rw [h2]
    have h3 : idx + j - n + n - idx = j := by omega
    rw [h3, Nat.mod_eq_of_lt hj]

/-- Rotation access: element `j` of `path[idx:] ++ path[:idx]` is
element `(idx + j) % n` of `path`. -/
theorem rotate_getD (path : List Pt) (idx j : ℕ) (hidx : idx ≤ path.length)
    (hj : j < path.length) (d : Pt) :
    (path.drop idx ++ path.take idx).getD j d = path.getD ((idx + j) % path.length) d := by
  have hrot : path.drop idx ++ path.take idx = path.rotate idx :=
    (List.rotate_eq_drop_append_take hidx).symm
  rw [hrot]
  have hjr : j < (path.rotate idx).length := by
    rw [List.length_rotate]; exact hj
  have hm : (idx + j) % path.length < path.length :=
    Nat.mod_lt _ (by omega)
  rw [List.getD_eq_getElem _ _ hjr, List.getD_eq_getElem _ _ hm, List.getElem_rotate]
  congr 1
  rw [Nat.add_comm]

/-- Structure of the second-endpoint index for duplicate-free contours:
it sits at forward offset `p + skip` from the primary endpoint, where
`p` is the arg-min position inside the middle section; hence the offset
lies in `[⌊L/4⌋, L - ⌊L/4⌋ - 1]`. -/
theorem get_second_endpoint_offset [LinearOrder α] (path : List Pt) (angles : List α)
    (idx : ℕ) (hnd : path.Nodup) (hlen : angles.length = path.length)
    (hidx : idx < path.length) :
    path.length / 4
        ≤ (get_second_endpoint path angles idx + path.length - idx) % path.length
      ∧ (get_second_endpoint path angles idx + path.length - idx) % path.length
        ≤ path.length - path.length / 4 - 1 := by
  have hn : 0 < path.length := by omega
  have hra_len : (angles.drop idx ++ angles.take idx).length = path.length := by
    rw [List.length_append, List.length_drop, List.length_take, hlen]
    omega
  have hdef : get_second_endpoint path angles idx
      = path.findIdx (fun q => decide (q = (path.drop idx ++ path.take idx).getD
          (idxMinFirst (if path.length / 4 = 0 then ([] : List α)
            else ((angles.drop idx ++ angles.take idx).drop (path.length / 4)).take
              ((angles.drop idx ++ angles.take idx).length - 2 * (path.length / 4)))
          + path.length / 4) ((0 : ℤ), (0 : ℤ)))) := rfl
  set p := idxMinFirst (if path.length / 4 = 0 then ([] : List α)
    else ((angles.drop idx ++ angles.take idx).drop (path.length / 4)).take
      ((angles.drop idx ++ angles.take idx).length - 2 * (path.length / 4))) with hp
  have hpbound : path.length / 4 = 0 ∧ p = 0
      ∨ 0 < path.length / 4 ∧ p < path.length - 2 * (path.length / 4) := by
    by_cases h0 : path.length / 4 = 0
    · left
      refine ⟨h0, ?_⟩
      rw [hp, if_pos h0]
      rfl
    · right
      refine ⟨Nat.pos_of_ne_zero h0, ?_⟩
      have h2skip : 2 * (path.length / 4) < path.length := by
        have h4 : 1 ≤ path.length / 4 := Nat.pos_of_ne_zero h0
        omega
      have hmid_len : (if path.length / 4 = 0 then ([] : List α)
          else ((angles.drop idx ++ angles.take idx).drop (path.length / 4)).take
            ((angles.drop idx ++ angles.take idx).length - 2 * (path.length / 4))).length
          = path.length - 2 * (path.length / 4) := by
        rw [if_neg h0, List.length_take, List.length_drop, hra_len]
        omega
      have hne : (if path.length / 4 = 0 then ([] : List α)
          else ((angles.drop idx ++ angles.take idx).drop (path.length / 4)).take
            ((angles.drop idx ++ angles.take idx).length - 2 * (path.length / 4))) ≠ [] := by
        intro hc
        rw [hc] at hmid_len
        simp only [List.length_nil] at hmid_len
        omega
      have := idxMinFirst_lt_length _ hne
      rw [hmid_len] at this
      exact this
  have hjn : p + path.length / 4 < path.length := by
    rcases hpbound with ⟨h0, hp0⟩ | ⟨h0, hplt⟩
    · rw [h0, hp0]; omega
    · omega
  have hmn : (idx + (p + path.length / 4)) % path.length < path.length :=
    Nat.mod_lt _ hn
  have hcoord : (path.drop idx ++ path.take idx).getD (p + path.length / 4) ((0 : ℤ), (0 : ℤ))
      = path.getD ((idx + (p + path.length / 4)) % path.length) ((0 : ℤ), (0 : ℤ)) :=
    rotate_getD path idx _ (le_of_lt hidx) hjn _
  have hindex : path.findIdx (fun q => decide
        (q = path.getD ((idx + (p + path.length / 4)) % path.length) ((0 : ℤ), (0 : ℤ))))
      = (idx + (p + path.length / 4)) % path.length := by
    rw [List.getD_eq_getElem _ _ hmn]
    exact List.indexOf_getElem hnd _ hmn
  rw [hdef, hcoord, hindex, offset_mod_cancel path.length idx _ hidx hjn]
  rcases hpbound with ⟨h0, hp0⟩ | ⟨h0, hplt⟩
  · rw [h0, hp0]
    omega
  · omega

/-- C2 (amended): for every duplicate-free closed contour, every angle
array of matching length, and every primary index, the second endpoint
returned by `get_second_endpoint` lies at forward circular offset
between `⌊L/4⌋` and `L - ⌊L/4⌋ - 1` from the primary endpoint.  (The
original claim - strictly outside the band of circular radius `L/4` -
fails: the offset can equal `⌊L/4⌋ < L/4`; see
`claim_C2_counterexample`.) -/
theorem claim_C2_second_endpoint_band [LinearOrder α] (path : List Pt)
    (angles : List α) (idx : ℕ) (hnd : path.Nodup)
    (hlen : angles.length = path.length) (hidx : idx < path.length) :
    path.length / 4
        ≤ (get_second_endpoint path angles idx + path.length - idx) % path.length
      ∧ (get_second_endpoint path angles idx + path.length - idx) % path.length
        ≤ path.length - path.length / 4 - 1 :=
  get_second_endpoint_offset path angles idx hnd hlen hidx

/-- Witness for the amended C2 on an 8-point square contour. -/
theorem claim_C2_second_endpoint_band_witness :
    (([((0 : ℤ), (0 : ℤ)), (1, 0), (2, 0), (2, 1), (2, 2), (1, 2), (0, 2), (0, 1)] : List Pt).Nodup
      ∧ ([(0 : ℚ), 1, 1, 0, 1, 1, 1, 1] : List ℚ).length
          = ([((0 : ℤ), (0 : ℤ)), (1, 0), (2, 0), (2, 1), (2, 2), (1, 2), (0, 2), (0, 1)] : List Pt).length
      ∧ 0 < ([((0 : ℤ), (0 : ℤ)), (1, 0), (2, 0), (2, 1), (2, 2), (1, 2), (0, 2), (0, 1)] : List Pt).length) ∧
    (([((0 : ℤ), (0 : ℤ)), (1, 0), (2, 0), (2, 1), (2, 2), (1, 2), (0, 2), (0, 1)] : List Pt).length / 4
        ≤ (get_second_endpoint
            [((0 : ℤ), (0 : ℤ)), (1, 0), (2, 0), (2, 1), (2, 2), (1, 2), (0, 2), (0, 1)]
            [(0 : ℚ), 1, 1, 0, 1, 1, 1, 1] 0
          + ([((0 : ℤ), (0 : ℤ)), (1, 0), (2, 0), (2, 1), (2, 2), (1, 2), (0, 2), (0, 1)] : List Pt).length - 0)
          % ([((0 : ℤ), (0 : ℤ)), (1, 0), (2, 0), (2, 1), (2, 2), (1, 2), (0, 2), (0, 1)] : List Pt).length
      ∧ (get_second_endpoint
            [((0 : ℤ), (0 : ℤ)), (1, 0), (2, 0), (2, 1), (2, 2), (1, 2), (0, 2), (0, 1)]
            [(0 : ℚ), 1, 1, 0, 1, 1, 1, 1] 0
          + ([((0 : ℤ), (0 : ℤ)), (1, 0), (2, 0), (2, 1), (2, 2), (1, 2), (0, 2), (0, 1)] : List Pt).length - 0)
          % ([((0 : ℤ), (0 : ℤ)), (1, 0), (2, 0), (2, 1), (2, 2), (1, 2), (0, 2), (0, 1)] : List Pt).length
        ≤ ([((0 : ℤ), (0 : ℤ)), (1, 0), (2, 0), (2, 1), (2, 2), (1, 2), (0, 2), (0, 1)] : List Pt).length
          - ([((0 : ℤ), (0 : ℤ)), (1, 0), (2, 0), (2, 1), (2, 2), (1, 2), (0, 2), (0, 1)] : List Pt).length / 4 - 1) :=
  ⟨⟨by decide, by decide, by decide⟩,
   claim_C2_second_endpoint_band
     [((0 : ℤ), (0 : ℤ)), (1, 0), (2, 0), (2, 1), (2, 2), (1, 2), (0, 2), (0, 1)]
     [(0 : ℚ), 1, 1, 0, 1, 1, 1, 1] 0 (by decide) (by decide) (by decide)⟩

set_option maxRecDepth 4000 in
/-- C2 (counterexample): on the 14-point rectangular contour with
`space = 1` (`space < L/2`, guard band well defined), the Endpoint
Detector returns the corner at index 3 as the second endpoint: its
circular distance from the primary endpoint (index 0) is `3 < 14/4`,
strictly inside the guard band `[primary - L/4, primary + L/4]`. -/
theorem claim_C2_counterexample :
    (1 : ℚ) < (rectPath14.length : ℚ) / 2 ∧
    ¬ outsideGuardBand rectPath14.length
      (get_endpoint_pairR rectPath14 1).1 (get_endpoint_pairR rectPath14 1).2 := by
  constructor
  · norm_num [rectPath14]
  · rw [get_endpoint_pair_R_eq_C rectPath14 1 (by with_unfolding_all decide)]
    with_unfolding_all decide

/-!
Claim C1: the orchestrator's output pair.
-/

theorem binarize_support (m : MaskL) (y x : ℕ) :
    getPix (binarize m) y x ≠ 0 ↔ getPix m y x ≠ 0 := by
  unfold binarize
  rw [getPix_mapmap (fun v => if 0 < v then 1 else 0) (by simp) m y x]
  by_cases h : 0 < getPix m y x
  · rw [if_pos h]
    exact ⟨fun _ => by omega, fun _ => one_ne_zero⟩
  · rw [if_neg h]
    exact ⟨fun hc => absurd rfl hc, fun hc => by omega⟩

theorem lineDrawC_support (m : MaskL) (p1 p2 : Pt) (y x : ℕ) :
    getPix (lineDrawC m p1 p2) y x ≠ 0 → getPix m y x ≠ 0 := by
  intro h
  unfold lineDrawC at h
  have hgrid : getPix (gridMap m (fun y x =>
      if segNear p1 p2 (x : ℤ) (y : ℤ) then 0 else getPix m y x)) y x ≠ 0 := h
  rw [getPix_gridMap] at hgrid
  by_cases hb : y < m.length ∧ x < (m.getD y []).length
  · rw [if_pos hb] at hgrid
    by_cases hseg : segNear p1 p2 (x : ℤ) (y : ℤ)
    · rw [if_pos hseg] at hgrid
      exact absurd rfl hgrid
    · rw [if_neg hseg] at hgrid
      exact hgrid
  · rw [if_neg hb] at hgrid
    exact absurd rfl hgrid

theorem divide_mask_support (mask : MaskL) (path : List PtQ) (mid space : ℕ)
    (mult : ℚ) (y x : ℕ) :
    getPix (divide_mask mask path mid space mult) y x ≠ 0 → getPix mask y x ≠ 0 := by
  unfold divide_mask
  exact lineDrawC_support mask _ _ y x

/-- Support chain for one orchestrator output: a non-zero output pixel
was non-zero in the bisected mask (and hence in the input mask), and
its label in the labeled mask equals the label at the select anchor. -/
theorem worm_select_support (mask : MaskL) (spline : List PtQ) (mid : ℕ)
    (anchor : Pt) (y x : ℕ)
    (h : getPix (select_mask (labelC (binarize (divide_mask mask spline mid 50 6)))
        anchor) y x ≠ 0) :
    getPix (divide_mask mask spline mid 50 6) y x ≠ 0 ∧
    getPix (labelC (binarize (divide_mask mask spline mid 50 6))) y x
      = getPixZ (labelC (binarize (divide_mask mask spline mid 50 6)))
          anchor.2 anchor.1 := by
  rw [select_mask_pixel] at h
  by_cases hc : getPix (labelC (binarize (divide_mask mask spline mid 50 6))) y x
      = getPixZ (labelC (binarize (divide_mask mask spline mid 50 6))) anchor.2 anchor.1
  · rw [if_pos hc] at h
    refine ⟨?_, hc⟩
    have h1 : getPix (binarize (divide_mask mask spline mid 50 6)) y x ≠ 0 := by
      intro hz
      exact h ((labelC_support (binarize (divide_mask mask spline mid 50 6)) y x).mpr hz)
    exact (binarize_support (divide_mask mask spline mid 50 6) y x).mp h1
  · rw [if_neg hc] at h
    exact absurd rfl h

/-- C1 (amended): for every choice of the external primitives and all
inputs, the two masks returned by `get_worm_masks` have foreground
contained in the input mask's foreground (the cut line and unselected
components are lost, so equality fails - see
`claim_C1_counterexample`), and they can overlap at a pixel only if
the bisected labeled mask assigns the same label to the head and tail
anchors; in particular they are disjoint whenever the cut separates
the two anchors. -/
theorem claim_C1_worm_masks_amended (findC : MaskL → List (List Pt))
    (area : List Pt → ℚ) (fit : List Pt → ℕ → List PtQ)
    (mask ant_mask : MaskL) (q : ℚ) :
    (∀ y x, getPix (get_worm_masksE findC area fit mask ant_mask q).1 y x ≠ 0
        ∨ getPix (get_worm_masksE findC area fit mask ant_mask q).2 y x ≠ 0
      → getPix mask y x ≠ 0) ∧
    (∀ y x, getPix (get_worm_masksE findC area fit mask ant_mask q).1 y x ≠ 0
      → getPix (get_worm_masksE findC area fit mask ant_mask q).2 y x ≠ 0
      → getPixZ (wormLabeled findC area fit mask ant_mask q)
          ((wormBorder findC area mask).getD
            (wormHT findC area mask ant_mask).1 (0, 0)).2
          ((wormBorder findC area mask).getD
            (wormHT findC area mask ant_mask).1 (0, 0)).1
        = getPixZ (wormLabeled findC area fit mask ant_mask q)
          ((wormBorder findC area mask).getD
            (wormHT findC area mask ant_mask).2 (0, 0)).2
          ((wormBorder findC area mask).getD
            (wormHT findC area mask ant_mask).2 (0, 0)).1) := by
  have hsup1 : ∀ y x,
      getPix (get_worm_masksE findC area fit mask ant_mask q).1 y x ≠ 0 →
      getPix (divide_mask mask (wormSpline findC area fit mask ant_mask)
        (get_quantile_point (wormSpline findC area fit mask ant_mask) q) 50 6) y x ≠ 0 ∧
      getPix (wormLabeled findC area fit mask ant_mask q) y x
        = getPixZ (wormLabeled findC area fit mask ant_mask q)
            ((wormBorder findC area mask).getD
              (wormHT findC area mask ant_mask).1 (0, 0)).2
            ((wormBorder findC area mask).getD
              (wormHT findC area mask ant_mask).1 (0, 0)).1 := by
    intro y x h
    exact worm_select_support mask (wormSpline findC area fit mask ant_mask)
      (get_quantile_point (wormSpline findC area fit mask ant_mask) q)
      ((wormBorder findC area mask).getD (wormHT findC area mask ant_mask).1 (0, 0))
      y x h
  have hsup2 : ∀ y x,
      getPix (get_worm_masksE findC area fit mask ant_mask q).2 y x ≠ 0 →
      getPix (divide_mask mask (wormSpline findC area fit mask ant_mask)
        (get_quantile_point (wormSpline findC area fit mask ant_mask) q) 50 6) y x ≠ 0 ∧
      getPix (wormLabeled findC area fit mask ant_mask q) y x
        = getPixZ (wormLabeled findC area fit mask ant_mask q)
            ((wormBorder findC area mask).getD
              (wormHT findC area mask ant_mask).2 (0, 0)).2
            ((wormBorder findC area mask).getD
              (wormHT findC area mask ant_mask).2 (0, 0)).1 := by
    intro y x h
    exact worm_select_support mask (wormSpline findC area fit mask ant_mask)
      (get_quantile_point (wormSpline findC area fit mask ant_mask) q)
      ((wormBorder findC area mask).getD (wormHT findC area mask ant_mask).2 (0, 0))
      y x h
  constructor
  · intro y x h
    rcases h with h | h
    · exact divide_mask_support mask _ _ _ _ y x (hsup1 y x h).1
    · exact divide_mask_support mask _ _ _ _ y x (hsup2 y x h).1
  · intro y x h1 h2
    rw [← (hsup1 y x h1).2, ← (hsup2 y x h2).2]

/-- Witness for the amended C1 at concrete inputs. -/
theorem claim_C1_worm_masks_amended_witness :
    (∀ y x, getPix (get_worm_masksE (fun _ => [[((0 : ℤ), (0 : ℤ))]]) (fun _ => 1)
          (fun _ _ => [((0 : ℚ), (0 : ℚ)), (1, 0)]) [[1, 0, 0, 1]] [[1]] 1).1 y x ≠ 0
        ∨ getPix (get_worm_masksE (fun _ => [[((0 : ℤ), (0 : ℤ))]]) (fun _ => 1)
          (fun _ _ => [((0 : ℚ), (0 : ℚ)), (1, 0)]) [[1, 0, 0, 1]] [[1]] 1).2 y x ≠ 0
      → getPix [[1, 0, 0, 1]] y x ≠ 0) :=
  (claim_C1_worm_masks_amended (fun _ => [[((0 : ℤ), (0 : ℤ))]]) (fun _ => 1)
    (fun _ _ => [((0 : ℚ), (0 : ℚ)), (1, 0)]) [[1, 0, 0, 1]] [[1]] 1).1

theorem zipWith_ptQavg_self (l : List PtQ) : List.zipWith ptQavg l l = l := by
  induction l with
  | nil => rfl
  | cons a t ih =>
    rw [List.zipWith_cons_cons, ih]
    congr 1
    unfold ptQavg
    have h1 : (a.1 + a.1) / 2 = a.1 := by ring
    have h2 : (a.2 + a.2) / 2 = a.2 := by ring
    rw [h1, h2]

theorem getD_rangeMap {α : Type} (n : ℕ) (f : ℕ → α) (k : ℕ) (hk : k < n) (d : α) :
    ((List.range n).map f).getD k d = f k := by
  have hk' : k < ((List.range n).map f).length := by simpa using hk
  rw [List.getD_eq_getElem _ _ hk', List.getElem_map, List.getElem_range]

theorem getD_append_left {α : Type} (l l' : List α) (k : ℕ) (hk : k < l.length) (d : α) :
    (l ++ l').getD k d = l.getD k d := by
  unfold List.getD
  rw [List.get?_eq_getElem?, List.get?_eq_getElem?, List.getElem?_append_left hk]

theorem getLastD_eq_getD {α : Type} (l : List α) (hne : l ≠ []) (d : α) :
    l.getLastD d = l.getD (l.length - 1) d := by
  induction l generalizing d with
  | nil => exact absurd rfl hne
  | cons a t ih =>
    rw [List.getLastD_cons]
    cases t with
    | nil => rfl
    | cons b t' =>
      rw [ih (by simp) a]
      have hlen : (b :: t').length - 1 < (b :: t').length := by simp
      have hlen2 : (a :: b :: t').length - 1 < (a :: b :: t').length := by simp
      rw [List.getD_eq_getElem _ _ hlen, List.getD_eq_getElem _ _ hlen2]
      have hidx : (a :: b :: t').length - 1 = ((b :: t').length - 1) + 1 := by
        simp
      simp only [hidx, List.getElem_cons_succ]

theorem zip_tail_rangeMap {α : Type} (n : ℕ) (f : ℕ → α) :
    ((List.range n).map f).zip ((List.range n).map f).tail
      = (List.range (n - 1)).map (fun k => (f k, f (k + 1))) := by
  apply List.ext_getElem
  · simp only [List.length_zip, List.length_tail, List.length_map, List.length_range]
    omega
  · intro i h1 h2
    have hn : i < n - 1 := by
      simp only [List.length_zip, List.length_tail, List.length_map,
        List.length_range] at h1
      omega
    simp only [List.getElem_zip, List.getElem_map, List.getElem_tail,
      List.getElem_range]

theorem cumsumL_replicate (n : ℕ) (g : ℚ) :
    cumsumL (List.replicate n g)
      = (List.range n).map (fun (j : ℕ) => ((j : ℚ) + 1) * g) := by
  induction n with
  | zero => rfl
  | succ m ih =>
    rw [List.replicate_succ, show cumsumL (g :: List.replicate m g)
        = g :: (cumsumL (List.replicate m g)).map (fun x => g + x) from rfl, ih,
      List.range_succ_eq_map, List.map_cons, List.map_map, List.map_map]
    congr 1
    · norm_num
    · apply List.map_congr_left
      intro k _
      simp only [Function.comp_apply]
      push_cast
      ring

/-- Characterisation of `idxMinFirst`: an index whose value is at most
every value and strictly below every earlier value is the first
arg-min. -/
theorem idxMinFirst_eq_of [LinearOrder α] (l : List α) (d : α) (i : ℕ)
    (hi : i < l.length)
    (hmin : ∀ j < l.length, l.getD i d ≤ l.getD j d)
    (hfirst : ∀ j < i, l.getD i d < l.getD j d) :
    idxMinFirst l = i := by
  have hne : l ≠ [] := by
    intro hc
    rw [hc] at hi
    simp at hi
  have hr := idxMinFirst_lt_length l hne
  rcases lt_trichotomy (idxMinFirst l) i with h | h | h
  · have h1 := hfirst _ h
    have h2 := idxMinFirst_le_all l d i hi
    exact absurd h2 (not_le.mpr h1)
  · exact h
  · have h1 := idxMinFirst_lt_before l d i h
    have h2 := hmin _ hr
    exact absurd h2 (not_le.mpr h1)

theorem wormW_pix (y x : ℕ) (hy : y < 7) (hx : x < 52) :
    getPix wormW y x = if 2 ≤ y ∧ y ≤ 4 ∧ 1 ≤ x ∧ x ≤ 50 then 1 else 0 := by
  unfold wormW getPix
  rw [getD_rangeMap 7 _ y hy, getD_rangeMap 52 _ x hx]

theorem wormA_pix (y x : ℕ) (hy : y < 7) (hx : x < 52) :
    getPix wormA y x = if x ≤ 25 then 1 else 0 := by
  unfold wormA getPix
  rw [getD_rangeMap 7 _ y hy, getD_rangeMap 52 _ x hx]

theorem wormA_anchor : getPixZ wormA 2 2 = 1 := by
  unfold getPixZ
  rw [if_pos ⟨by norm_num, by norm_num⟩]
  rw [show ((2 : ℤ).toNat) = 2 from rfl]
  rw [wormA_pix 2 2 (by norm_num) (by norm_num)]
  norm_num

theorem wormBorderPath_getD_one : wormBorderPath.getD 1 (0, 0) = (2, 2) := by
  unfold wormBorderPath
  rw [getD_append_left _ _ 1 (by simp), getD_append_left _ _ 1 (by simp),
    getD_append_left _ _ 1 (by simp)]
  rw [getD_rangeMap 50 _ 1 (by norm_num)]
  norm_num

theorem wormBorderPath_getD_fortyeight :
    wormBorderPath.getD 48 (0, 0) = (49, 2) := by
  unfold wormBorderPath
  rw [getD_append_left _ _ 48 (by simp), getD_append_left _ _ 48 (by simp),
    getD_append_left _ _ 48 (by simp)]
  rw [getD_rangeMap 50 _ 48 (by norm_num)]
  norm_num

theorem wormBorder_eq : wormBorder wormFindC wormArea wormW = wormBorderPath := rfl

theorem wormBorderPath_noZeroVec : noZeroVec wormBorderPath 50 := by
  with_unfolding_all decide

set_option maxRecDepth 10000 in
theorem wormBorderPath_pairC : get_endpoint_pairC wormBorderPath 50 = (1, 48) := by
  with_unfolding_all decide

theorem wormBorderPath_pairR : get_endpoint_pairR wormBorderPath 50 = (1, 48) := by
  rw [get_endpoint_pair_R_eq_C wormBorderPath 50 wormBorderPath_noZeroVec]
  exact wormBorderPath_pairC

theorem worm_check_head : check_head wormBorderPath 1 48 wormA = (1, 48) := by
  simp only [check_head, wormBorderPath_getD_one]
  rw [wormA_anchor]
  norm_num

theorem wormHT_eq : wormHT wormFindC wormArea wormW wormA = (1, 48) := by
  unfold wormHT
  rw [wormBorder_eq, wormBorderPath_pairR]
  exact worm_check_head

theorem wormCenter_length : wormCenter.length = 70 := by
  unfold wormCenter
  simp

theorem wormCenter_getD_zero : wormCenter.getD 0 (0, 0) = (1, 3) := by
  unfold wormCenter
  rw [getD_rangeMap 70 _ 0 (by norm_num)]
  norm_num

theorem wormCenter_getD_eight : wormCenter.getD 8 (0, 0) = (461 / 69, 3) := by
  unfold wormCenter
  rw [getD_rangeMap 70 _ 8 (by norm_num)]
  norm_num

theorem wormCenter_getD_fiftyeight :
    wormCenter.getD 58 (0, 0) = (2911 / 69, 3) := by
  unfold wormCenter
  rw [getD_rangeMap 70 _ 58 (by norm_num)]
  norm_num

theorem wormCenter_getD_sixtynine : wormCenter.getD 69 (0, 0) = (50, 3) := by
  unfold wormCenter
  rw [getD_rangeMap 70 _ 69 (by norm_num)]
  norm_num

theorem wormSpline_eq :
    wormSpline wormFindC wormArea wormFit wormW wormA = wormCenter := by
  unfold wormSpline
  rw [wormBorder_eq, wormHT_eq]
  show get_spline wormFit wormBorderPath 1 48 = wormCenter
  unfold get_spline resample_path wormFit
  dsimp only
  rw [zipWith_ptQavg_self, wormBorderPath_getD_one, wormCenter_length]
  rw [show (70 - 1 : ℕ) = 69 from rfl]
  rw [wormCenter_getD_sixtynine, wormCenter_getD_zero]
  rw [if_neg (by unfold sqDistQ ptQofZ; norm_num)]

theorem wormCenter_sqDist (k : ℕ) :
    sqDistQ (1 + ((k + 1 : ℕ) : ℚ) * 49 / 69, (3 : ℚ))
        (1 + (k : ℚ) * 49 / 69, (3 : ℚ))
      = (49 / 69) * (49 / 69) := by
  unfold sqDistQ
  push_cast
  ring

theorem wormCenter_diff : diffDistsQ wormCenter = List.replicate 69 (49 / 69 : ℚ) := by
  unfold diffDistsQ wormCenter
  rw [zip_tail_rangeMap, List.map_map]
  rw [show (70 - 1 : ℕ) = 69 from rfl]
  rw [List.map_congr_left (fun k _ => by
    show Rat.sqrt (sqDistQ (1 + ((k + 1 : ℕ) : ℚ) * 49 / 69, (3 : ℚ))
        (1 + (k : ℚ) * 49 / 69, (3 : ℚ))) = (fun (_ : ℕ) => (49 / 69 : ℚ)) k
    rw [wormCenter_sqDist, Rat.sqrt_eq]
    norm_num)]
  rw [List.map_const', List.length_range]

theorem wormCenter_perf : allPerfSq wormCenter := by
  intro pq hpq
  unfold wormCenter at hpq
  rw [zip_tail_rangeMap] at hpq
  simp only [List.mem_map, List.mem_range] at hpq
  obtain ⟨k, _, hpq⟩ := hpq
  subst hpq
  show Rat.sqrt (sqDistQ (1 + ((k + 1 : ℕ) : ℚ) * 49 / 69, (3 : ℚ))
      (1 + (k : ℚ) * 49 / 69, (3 : ℚ))) * _ = _
  rw [wormCenter_sqDist, Rat.sqrt_eq]
  norm_num

theorem wormCenter_cum :
    cumsumL (diffDistsQ wormCenter)
      = (List.range 69).map (fun (j : ℕ) => ((j : ℚ) + 1) * (49 / 69)) := by
  rw [wormCenter_diff, cumsumL_replicate]

theorem wormCenter_total : (cumsumL (diffDistsQ wormCenter)).getLastD 0 = 49 := by
  rw [wormCenter_cum]
  rw [getLastD_eq_getD _ (by simp) 0]
  rw [show (((List.range 69).map (fun (j : ℕ) => ((j : ℚ) + 1) * (49 / 69))).length - 1)
      = 68 by simp]
  rw [getD_rangeMap 69 _ 68 (by norm_num)]
  norm_num

theorem wormCenter_quantQ : get_quantile_pointQ wormCenter (13 / 100) = 8 := by
  unfold get_quantile_pointQ
  rw [wormCenter_total, wormCenter_cum, List.map_map]
  apply idxMinFirst_eq_of _ 0 8
  · simp
  · intro j hj
    rw [List.length_map, List.length_range] at hj
    rw [getD_rangeMap 69 _ 8 (by norm_num), getD_rangeMap 69 _ j hj]
    simp only [Function.comp_apply]
    push_cast
    rw [show ((8 : ℚ) + 1) * (49 / 69) - 49 * (13 / 100) = 49 / 2300 from by norm_num,
      abs_of_nonneg (by norm_num : (0 : ℚ) ≤ 49 / 2300)]
    rcases lt_trichotomy j 8 with hj8 | hj8 | hj8
    · have hc : (j : ℚ) + 1 ≤ 8 := by
        have h7 : (j : ℚ) ≤ 7 := by exact_mod_cast Nat.le_of_lt_succ hj8
        linarith
      have hneg : ((j : ℚ) + 1) * (49 / 69) - 49 * (13 / 100) ≤ -(4753 / 6900) := by
        nlinarith
      have habs : (4753 / 6900 : ℚ)
          ≤ |((j : ℚ) + 1) * (49 / 69) - 49 * (13 / 100)| := by
        have hna := neg_le_abs (((j : ℚ) + 1) * (49 / 69) - 49 * (13 / 100))
        linarith
      linarith
    · subst hj8
      push_cast
      rw [show ((8 : ℚ) + 1) * (49 / 69) - 49 * (13 / 100) = 49 / 2300 from by norm_num,
        abs_of_nonneg (by norm_num : (0 : ℚ) ≤ 49 / 2300)]
    · have hc : (9 : ℚ) ≤ (j : ℚ) := by exact_mod_cast hj8
      have hpos : (5047 / 6900 : ℚ)
          ≤ ((j : ℚ) + 1) * (49 / 69) - 49 * (13 / 100) := by nlinarith
      have habs := le_abs_self (((j : ℚ) + 1) * (49 / 69) - 49 * (13 / 100))
      linarith
  · intro j hj
    rw [getD_rangeMap 69 _ 8 (by norm_num), getD_rangeMap 69 _ j (by omega)]
    simp only [Function.comp_apply]
    push_cast
    rw [show ((8 : ℚ) + 1) * (49 / 69) - 49 * (13 / 100) = 49 / 2300 from by norm_num,
      abs_of_nonneg (by norm_num : (0 : ℚ) ≤ 49 / 2300)]
    have hc : (j : ℚ) + 1 ≤ 8 := by
      have h7 : (j : ℚ) ≤ 7 := by exact_mod_cast Nat.le_of_lt_succ hj
      linarith
    have hneg : ((j : ℚ) + 1) * (49 / 69) - 49 * (13 / 100) ≤ -(4753 / 6900) := by
      nlinarith
    have habs : (4753 / 6900 : ℚ)
        ≤ |((j : ℚ) + 1) * (49 / 69) - 49 * (13 / 100)| := by
      have hna := neg_le_abs (((j : ℚ) + 1) * (49 / 69) - 49 * (13 / 100))
      linarith
    linarith

theorem wormCenter_quantR : get_quantile_point wormCenter (13 / 100) = 8 := by
  rw [get_quantile_point_eq_Q wormCenter (13 / 100) wormCenter_perf]
  exact wormCenter_quantQ

theorem pyInt_floor_eq (q : ℚ) (z : ℤ) (h0 : 0 ≤ q) (h1 : (z : ℚ) ≤ q)
    (h2 : q < z + 1) : pyInt q = z := by
  unfold pyInt
  rw [if_pos h0, Int.floor_eq_iff]
  exact ⟨by exact_mod_cast h1, by exact_mod_cast h2⟩

theorem pyInt_ceil_eq (q : ℚ) (z : ℤ) (h0 : ¬ 0 ≤ q) (h1 : (z : ℚ) - 1 < q)
    (h2 : q ≤ z) : pyInt q = z := by
  unfold pyInt
  rw [if_neg h0, Int.ceil_eq_iff]
  exact ⟨by exact_mod_cast h1, by exact_mod_cast h2⟩

theorem getPix_lineDrawC (m : MaskL) (p1 p2 : Pt) (y x : ℕ)
    (hy : y < m.length) (hx : x < (m.getD y []).length) :
    getPix (lineDrawC m p1 p2) y x
      = if segNear p1 p2 (x : ℤ) (y : ℤ) then 0 else getPix m y x := by
  unfold lineDrawC getPix
  rw [getD_rangeMap m.length _ y hy, getD_rangeMap (m.getD y []).length _ x hx]

theorem worm_segNear : segNear (6, -210) (6, 216) 6 3 = true := by
  simp only [segNear]
  rw [if_neg (by push_cast; norm_num)]
  rw [decide_eq_true_eq]
  push_cast
  norm_num [min_def, max_def]

theorem wormW_row_length (y : ℕ) (hy : y < 7) : (wormW.getD y []).length = 52 := by
  unfold wormW
  rw [getD_rangeMap 7 _ y hy]
  simp

theorem worm_divide_pixel :
    getPix (divide_mask wormW wormCenter 8 50 6) 3 6 = 0 := by
  unfold divide_mask
  dsimp only
  rw [show (8 + 50 : ℕ) = 58 from rfl]
  rw [wormCenter_getD_eight, wormCenter_getD_fiftyeight]
  dsimp only
  rw [getPix_lineDrawC wormW _ _ 3 6 (by unfold wormW; simp) (by rw [wormW_row_length 3 (by norm_num)]; norm_num)]
  rw [pyInt_floor_eq ((461 / 69 : ℚ) + 6 * ((3 : ℚ) - (3 : ℚ))) 6 (by norm_num)
      (by norm_num) (by norm_num),
    pyInt_ceil_eq ((3 : ℚ) + 6 * ((461 / 69 : ℚ) - (2911 / 69 : ℚ))) (-210)
      (by norm_num) (by norm_num) (by norm_num),
    pyInt_floor_eq ((461 / 69 : ℚ) - 6 * ((3 : ℚ) - (3 : ℚ))) 6 (by norm_num)
      (by norm_num) (by norm_num),
    pyInt_floor_eq ((3 : ℚ) - 6 * ((461 / 69 : ℚ) - (2911 / 69 : ℚ))) 216
      (by norm_num) (by norm_num) (by norm_num)]
  rw [if_pos (by rw [show ((6 : ℕ) : ℤ) = 6 from rfl, show ((3 : ℕ) : ℤ) = 3 from rfl]; exact worm_segNear)]

theorem wormW_pixel_36 : getPix wormW 3 6 = 1 := by
  rw [wormW_pix 3 6 (by norm_num) (by norm_num)]
  norm_num

theorem get_worm_masksE_fst (findC : MaskL → List (List Pt)) (area : List Pt → ℚ)
    (fit : List Pt → ℕ → List PtQ) (mask ant_mask : MaskL) (q : ℚ) :
    (get_worm_masksE findC area fit mask ant_mask q).1
      = select_mask (wormLabeled findC area fit mask ant_mask q)
          ((wormBorder findC area mask).getD (wormHT findC area mask ant_mask).1 (0, 0)) :=
  rfl

theorem get_worm_masksE_snd (findC : MaskL → List (List Pt)) (area : List Pt → ℚ)
    (fit : List Pt → ℕ → List PtQ) (mask ant_mask : MaskL) (q : ℚ) :
    (get_worm_masksE findC area fit mask ant_mask q).2
      = select_mask (wormLabeled findC area fit mask ant_mask q)
          ((wormBorder findC area mask).getD (wormHT findC area mask ant_mask).2 (0, 0)) :=
  rfl

theorem wormLabeled_unfold (findC : MaskL → List (List Pt)) (area : List Pt → ℚ)
    (fit : List Pt → ℕ → List PtQ) (mask ant_mask : MaskL) (q : ℚ) :
    wormLabeled findC area fit mask ant_mask q
      = labelC (binarize (divide_mask mask (wormSpline findC area fit mask ant_mask)
          (get_quantile_point (wormSpline findC area fit mask ant_mask) q) 50 6)) :=
  rfl

set_option maxHeartbeats 1000000 in
/-- C1: counterexample.  On a synthetic single-component elongated bar
mask (with concrete, faithful contour / area / spline externals whose
outputs match what the real externals produce on this mask), the pair
returned by `get_worm_masks` does NOT satisfy the claimed exact-cover
property: the dividing cut of `divide_mask` is overwritten as
background on the copy before labeling, so the foreground pixels under
the thick cut line (here pixel `(y,x) = (3,6)`) belong to neither
returned mask, and the union of the two outputs restricted to
foreground is a strict subset of the input's foreground. -/
theorem claim_C1_counterexample :
    ¬ maskPairExactCover
        (get_worm_masksE wormFindC wormArea wormFit wormW wormA (13 / 100)) wormW := by
  intro h
  have hor := (h.2 3 6).mpr (by rw [wormW_pixel_36]; norm_num)
  rcases hor with ho | ho
  · rw [get_worm_masksE_fst, wormLabeled_unfold] at ho
    have hs := worm_select_support wormW
      (wormSpline wormFindC wormArea wormFit wormW wormA)
      (get_quantile_point (wormSpline wormFindC wormArea wormFit wormW wormA) (13 / 100))
      ((wormBorder wormFindC wormArea wormW).getD
        (wormHT wormFindC wormArea wormW wormA).1 (0, 0)) 3 6 ho
    have hd := hs.1
    rw [wormSpline_eq, wormCenter_quantR] at hd
    exact hd worm_divide_pixel
  · rw [get_worm_masksE_snd, wormLabeled_unfold] at ho
    have hs := worm_select_support wormW
      (wormSpline wormFindC wormArea wormFit wormW wormA)
      (get_quantile_point (wormSpline wormFindC wormArea wormFit wormW wormA) (13 / 100))
      ((wormBorder wormFindC wormArea wormW).getD
        (wormHT wormFindC wormArea wormW wormA).2 (0, 0)) 3 6 ho
    have hd := hs.1
    rw [wormSpline_eq, wormCenter_quantR] at hd
    exact hd worm_divide_pixel
